import Mathlib

/-!
Verification development for the ai-candyshop repository.

This file gives a shallow embedding in Lean 4 of the parts of the
repository that the assessed claims are about:

* the JSON extraction heuristics of research_exa.py
  (extract_json_from_response) and thinking_ReAct.py
  (extract_json_from_text), together with an executable model of
  Python's json.loads / json.dumps restricted to the JSON fragment the
  repository manipulates (numbers are modeled as arbitrary-precision
  integers; fractional/exponent number forms, NaN/Infinity and
  surrogate-pair recombination of the Python json module are outside
  the model, and ASCII whitespace stands in for unicode whitespace);
* the ReAct agent loop run_gemini_simulation of thinking_ReAct.py,
  with the LLM and the two HTTP tools passed in as oracles;
* the page-aggregation logic of pdf2md.py's main;
* save_research / load_research of research_exa.py;
* process_path / is_binary_file of merge_codebase_context.py.

Strings are modeled as lists of characters.  Python's None and a
parsed JSON null are the same Python value; the embedding therefore
returns a JVal from the extraction functions, with JVal.null playing
the role of Python's None.
-/

abbrev LC := List Char

def S (s : String) : LC := s.data

/-- The backtick character (written numerically throughout). -/
def btick : Char := Char.ofNat 96

/-- Left curly brace. -/
def lbrace : Char := Char.ofNat 123

/-- Right curly brace. -/
def rbrace : Char := Char.ofNat 125

/-- Whitespace accepted between tokens by Python's json parser. -/
def isJsonWs (c : Char) : Bool :=
  c = ' ' || c = '\t' || c = '\n' || c = Char.ofNat 13

/-- ASCII whitespace for Python's str.strip and the regex class \s
(adds vertical tab and form feed). -/
def isPyWs (c : Char) : Bool :=
  isJsonWs c || c = Char.ofNat 11 || c = Char.ofNat 12

def skipWs (s : LC) : LC := s.dropWhile isJsonWs

def skipPyWs (s : LC) : LC := s.dropWhile isPyWs

/-- Python str.strip(). -/
def pyStrip (s : LC) : LC :=
  ((s.dropWhile isPyWs).reverse.dropWhile isPyWs).reverse

mutual
/-- Python values produced by json.loads on the fragment used by the
repository.  JVal.null doubles as Python's None. -/
inductive JVal where
  | null
  | bool (b : Bool)
  | num (n : Int)
  | str (s : LC)
  | arr (xs : JArr)
  | obj (fs : JObj)
deriving DecidableEq
/-- A Python list of JSON values. -/
inductive JArr where
  | nil
  | cons (hd : JVal) (tl : JArr)
deriving DecidableEq
/-- A Python dict as an insertion-ordered list of key/value pairs. -/
inductive JObj where
  | nil
  | cons (k : LC) (v : JVal) (tl : JObj)
deriving DecidableEq
end

/-- Python truthiness of a decoded JSON value (if not decision: ...). -/
def JVal.truthy : JVal → Bool
  | .null => false
  | .bool b => b
  | .num n => n != 0
  | .str s => !s.isEmpty
  | .arr .nil => false
  | .arr (.cons _ _) => true
  | .obj .nil => false
  | .obj (.cons _ _ _) => true

/-- Python dict lookup; a later duplicate key overwrites an earlier one. -/
def JObj.lookupLast (k : LC) : JObj → Option JVal
  | .nil => none
  | .cons k2 v tl =>
    match JObj.lookupLast k tl with
    | some v2 => some v2
    | none => if k2 = k then some v else none

/-- Python dict.get with a default. -/
def dictGet (fs : JObj) (k : LC) (dflt : JVal) : JVal :=
  (JObj.lookupLast k fs).getD dflt

/-! ### json.loads, modeled as a fuel-indexed recursive-descent parser

The parser mirrors Python's json scanner on the modeled fragment:
a value is null/true/false, a string with the standard escapes,
an integer matching -?(0|[1-9][0-9]*), an array or an object; strings
reject unescaped control characters; objects and arrays reject
trailing commas; loads requires the whole input to be consumed up to
trailing whitespace. -/

def hexVal (c : Char) : Option Nat :=
  if c.isDigit then some (c.toNat - 48)
  else if 'a' ≤ c && c ≤ 'f' then some (c.toNat - 87)
  else if 'A' ≤ c && c ≤ 'F' then some (c.toNat - 55)
  else none

/-- The BACKSLASH escape table of Python's json string scanner. -/
def escMap (e : Char) : Option Char :=
  if e = '"' then some '"'
  else if e = '\\' then some '\\'
  else if e = '/' then some '/'
  else if e = 'b' then some (Char.ofNat 8)
  else if e = 'f' then some (Char.ofNat 12)
  else if e = 'n' then some '\n'
  else if e = 'r' then some (Char.ofNat 13)
  else if e = 't' then some '\t'
  else none

mutual
/-- Parse the body of a JSON string literal (after the opening quote),
returning the decoded characters and the input after the closing
quote. -/
def parseStrBody : LC → Option (LC × LC)
  | [] => none
  | c :: rest =>
    if c = '"' then some ([], rest)
    else if c = '\\' then parseEscBody rest
    else if c.toNat < 32 then none
    else
      match parseStrBody rest with
      | some (tl, r) => some (c :: tl, r)
      | none => none
/-- Parse one escape sequence (after the backslash): the escape table
first, then a \uXXXX sequence. -/
def parseEscBody : LC → Option (LC × LC)
  | [] => none
  | e :: rest2 =>
    match escMap e with
    | some ch =>
      match parseStrBody rest2 with
      | some (tl, r) => some (ch :: tl, r)
      | none => none
    | none =>
      if e = 'u' then
        match rest2 with
        | h1 :: h2 :: h3 :: h4 :: rest3 =>
          match hexVal h1, hexVal h2, hexVal h3, hexVal h4 with
          | some a, some b, some c3, some d =>
            match parseStrBody rest3 with
            | some (tl, r) =>
              some (Char.ofNat (a * 4096 + b * 256 + c3 * 16 + d) :: tl, r)
            | none => none
          | _, _, _, _ => none
        | _ => none
      else none
end

def digitsVal (l : LC) : Nat :=
  l.foldl (fun a c => a * 10 + (c.toNat - 48)) 0

/-- Parse an unsigned JSON integer matching (0|[1-9][0-9]*). -/
def parseNatPart : LC → Option (Nat × LC)
  | [] => none
  | c :: rest =>
    if c = '0' then some (0, rest)
    else if c.isDigit then
      some (digitsVal (c :: rest.takeWhile Char.isDigit),
            rest.dropWhile Char.isDigit)
    else none

/-- Parse a JSON integer with optional leading minus sign. -/
def parseIntPart : LC → Option (Int × LC)
  | [] => none
  | c :: rest =>
    if c = '-' then
      match parseNatPart rest with
      | some (n, r) => some (-(n : Int), r)
      | none => none
    else
      match parseNatPart (c :: rest) with
      | some (n, r) => some ((n : Int), r)
      | none => none

mutual
/-- Parse one JSON value at the head of the input (leading whitespace
already skipped by the caller). -/
def parseVal : Nat → LC → Option (JVal × LC)
  | 0, _ => none
  | _ + 1, [] => none
  | fuel + 1, c :: rest =>
    if c = '"' then
      match parseStrBody rest with
      | some (s, r) => some (.str s, r)
      | none => none
    else if c = lbrace then
      match skipWs rest with
      | [] => none
      | d :: rest2 =>
        if d = rbrace then some (.obj .nil, rest2)
        else
          match parseFields fuel (d :: rest2) with
          | some (fs, r) => some (.obj fs, r)
          | none => none
    else if c = '[' then
      match skipWs rest with
      | [] => none
      | d :: rest2 =>
        if d = ']' then some (.arr .nil, rest2)
        else
          match parseElems fuel (d :: rest2) with
          | some (xs, r) => some (.arr xs, r)
          | none => none
    else if c = 't' then
      if (S "rue").isPrefixOf rest then some (.bool true, rest.drop 3) else none
    else if c = 'f' then
      if (S "alse").isPrefixOf rest then some (.bool false, rest.drop 4) else none
    else if c = 'n' then
      if (S "ull").isPrefixOf rest then some (.null, rest.drop 3) else none
    else if c = '-' || c.isDigit then
      match parseIntPart (c :: rest) with
      | some (n, r) => some (.num n, r)
      | none => none
    else none

/-- Parse the elements of a non-empty array, positioned at the first
character of the first element. -/
def parseElems : Nat → LC → Option (JArr × LC)
  | 0, _ => none
  | fuel + 1, s =>
    match parseVal fuel s with
    | none => none
    | some (v, r) =>
      match skipWs r with
      | ',' :: r2 =>
        match parseElems fuel (skipWs r2) with
        | some (tl, r3) => some (.cons v tl, r3)
        | none => none
      | ']' :: r2 => some (.cons v .nil, r2)
      | _ => none

/-- Parse the fields of a non-empty object, positioned at the opening
quote of the first key. -/
def parseFields : Nat → LC → Option (JObj × LC)
  | 0, _ => none
  | fuel + 1, s =>
    match s with
    | [] => none
    | c :: rest =>
    if c = '"' then
      match parseStrBody rest with
      | none => none
      | some (k, r) =>
        match skipWs r with
        | ':' :: r2 =>
          match parseVal fuel (skipWs r2) with
          | none => none
          | some (v, r3) =>
            match skipWs r3 with
            | ',' :: r4 =>
              match parseFields fuel (skipWs r4) with
              | some (tl, r5) => some (.cons k v tl, r5)
              | none => none
            | d :: r4 =>
              if d = rbrace then some (.cons k v .nil, r4) else none
            | [] => none
        | _ => none
    else none
end

/-- Python json.loads on the modeled fragment: a decode error is none. -/
def loads (s : LC) : Option JVal :=
  match parseVal (s.length + 1) (skipWs s) with
  | some (v, rest) => if (skipWs rest).isEmpty then some v else none
  | none => none

/-! ### json.dumps with the default separators and ensure_ascii=False -/

def hexDigit (n : Nat) : Char :=
  if n < 10 then Char.ofNat (48 + n) else Char.ofNat (87 + n)

/-- Escaping of one character inside a dumped JSON string. -/
def escapeChar (c : Char) : LC :=
  if c = '"' then ['\\', '"']
  else if c = '\\' then ['\\', '\\']
  else if c = '\n' then ['\\', 'n']
  else if c = '\t' then ['\\', 't']
  else if c = Char.ofNat 13 then ['\\', 'r']
  else if c = Char.ofNat 8 then ['\\', 'b']
  else if c = Char.ofNat 12 then ['\\', 'f']
  else if c.toNat < 32 then
    ['\\', 'u', '0', '0', hexDigit (c.toNat / 16), hexDigit (c.toNat % 16)]
  else [c]

def escapeStr (s : LC) : LC := s.foldr (fun c acc => escapeChar c ++ acc) []

def serializeStr (s : LC) : LC := '"' :: escapeStr s ++ ['"']

/-- Decimal digits of a natural number (fuel-indexed so that the
definition is structural; natChars supplies ample fuel). -/
def natCharsAux : Nat → Nat → LC
  | 0, _ => []
  | fuel + 1, n =>
    if n < 10 then [Char.ofNat (48 + n)]
    else natCharsAux fuel (n / 10) ++ [Char.ofNat (48 + n % 10)]

def natChars (n : Nat) : LC := natCharsAux (n + 1) n

/-- Python str() of an int. -/
def intChars : Int → LC
  | .ofNat n => natChars n
  | .negSucc m => '-' :: natChars (m + 1)

mutual
/-- Python json.dumps with default separators and ensure_ascii=False. -/
def serialize : JVal → LC
  | .null => S "null"
  | .bool true => S "true"
  | .bool false => S "false"
  | .num n => intChars n
  | .str s => serializeStr s
  | .arr .nil => S "[]"
  | .arr (.cons x tl) => '[' :: (serialize x ++ serializeArrTail tl ++ [']'])
  | .obj .nil => [lbrace, rbrace]
  | .obj (.cons k v tl) =>
    lbrace :: (serializeStr k ++ ':' :: ' ' :: serialize v ++
               serializeObjTail tl ++ [rbrace])
def serializeArrTail : JArr → LC
  | .nil => []
  | .cons x tl => ',' :: ' ' :: (serialize x ++ serializeArrTail tl)
def serializeObjTail : JObj → LC
  | .nil => []
  | .cons k v tl =>
    ',' :: ' ' :: (serializeStr k ++ ':' :: ' ' :: serialize v ++
                   serializeObjTail tl)
end

/-! ### The regex strategies of the two extraction functions

re.search with these patterns is deterministic enough to model
directly: a match attempt is made at each start position from the
left; the optional literal json is preferred present; \s* before a
required non-whitespace literal is a maximal munch; the lazy group
extends to the first position whose continuation matches.  For the
pattern of research_exa.py the engine can additionally backtrack the
\s* that precedes the lazy group, but every such fallback match has an
empty group, whose json.loads necessarily fails, so at the level of
the extraction function the model below is faithful. -/

/-- Continuation \s*(three backticks) used after the lazy group. -/
def fenceAhead (s : LC) : Bool :=
  [btick, btick, btick].isPrefixOf (skipPyWs s)

/-- Lazy scan of the thinking_ReAct.py pattern: consume characters up
to and including the first right brace whose continuation matches. -/
def lazyBraceScan : LC → Option LC
  | [] => none
  | c :: rest =>
    if c = rbrace && fenceAhead rest then some [c]
    else
      match lazyBraceScan rest with
      | some g => some (c :: g)
      | none => none

/-- Lazy scan of the research_exa.py pattern: the group is the
shortest run of characters followed by \s*(three backticks). -/
def lazyAnyScan : LC → Option LC
  | [] => if fenceAhead [] then some [] else none
  | c :: rest =>
    if fenceAhead (c :: rest) then some []
    else
      match lazyAnyScan rest with
      | some g => some (c :: g)
      | none => none

/-- Attempt the thinking_ReAct.py fence pattern at the head of the
input, returning group 1 on success. -/
def fenceGroupBraceAt (s : LC) : Option LC :=
  if [btick, btick, btick].isPrefixOf s then
    let t := s.drop 3
    let withJson : Option LC :=
      if (S "json").isPrefixOf t then
        match skipPyWs (t.drop 4) with
        | c :: rest =>
          if c = lbrace then
            match lazyBraceScan rest with
            | some g => some (lbrace :: g)
            | none => none
          else none
        | [] => none
      else none
    match withJson with
    | some g => some g
    | none =>
      match skipPyWs t with
      | c :: rest =>
        if c = lbrace then
          match lazyBraceScan rest with
          | some g => some (lbrace :: g)
          | none => none
        else none
      | [] => none
  else none

/-- Attempt the research_exa.py fence pattern at the head of the
input, returning group 1 on success. -/
def fenceGroupAnyAt (s : LC) : Option LC :=
  if [btick, btick, btick].isPrefixOf s then
    let t := s.drop 3
    let withJson : Option LC :=
      if (S "json").isPrefixOf t then lazyAnyScan (skipPyWs (t.drop 4))
      else none
    match withJson with
    | some g => some g
    | none => lazyAnyScan (skipPyWs t)
  else none

/-- re.search for the thinking_ReAct.py fence pattern: leftmost match. -/
def searchFenceBrace : LC → Option LC
  | [] => none
  | c :: rest =>
    match fenceGroupBraceAt (c :: rest) with
    | some g => some g
    | none => searchFenceBrace rest

/-- re.search for the research_exa.py fence pattern: leftmost match. -/
def searchFenceAny : LC → Option LC
  | [] => none
  | c :: rest =>
    match fenceGroupAnyAt (c :: rest) with
    | some g => some g
    | none => searchFenceAny rest

/-- re.search of the greedy object pattern of research_exa.py
(strategy 3): from the first left brace to the last right brace. -/
def bruteObjGroup (s : LC) : Option LC :=
  let t := s.dropWhile (fun c => c != lbrace)
  let u := (t.reverse.dropWhile (fun c => c != rbrace)).reverse
  if u.isEmpty then none else some u

/-- re.search of the greedy array pattern of research_exa.py
(strategy 3): from the first left bracket to the last right bracket. -/
def bruteArrGroup (s : LC) : Option LC :=
  let t := s.dropWhile (fun c => c != '[')
  let u := (t.reverse.dropWhile (fun c => c != ']')).reverse
  if u.isEmpty then none else some u

/-- The bracket-counting loop of thinking_ReAct.py's strategy 3:
running count over the characters; stop at the first position where
the count returns to zero. -/
def braceCountLoop : Int → LC → LC → Option LC
  | _, _, [] => none
  | count, acc, c :: rest =>
    let count2 :=
      if c = lbrace then count + 1
      else if c = rbrace then count - 1
      else count
    if count2 = 0 then some ((c :: acc).reverse)
    else braceCountLoop count2 (c :: acc) rest

/-- Strategy 3 of thinking_ReAct.py: find the first left brace and
take the slice up to the position where the brace count first returns
to zero. -/
def braceBalancedSlice (s : LC) : Option LC :=
  match s.dropWhile (fun c => c != lbrace) with
  | [] => none
  | t => braceCountLoop 0 [] t

/-! ### The two extraction functions -/

/-- extract_json_from_text of thinking_ReAct.py.  A successful
json.loads is returned even when its value is falsy; JVal.null is
Python's None, returned when everything fails. -/
def extract_json_from_text (text : LC) : JVal :=
  if text.isEmpty then JVal.null
  else
    match loads text with
    | some v => v
    | none =>
      match (searchFenceBrace text).bind loads with
      | some v => v
      | none =>
        match (braceBalancedSlice text).bind loads with
        | some v => v
        | none => JVal.null

/-- extract_json_from_response of research_exa.py with explicit
default argument. -/
def extract_json_from_response (content : LC) (dflt : JVal) : JVal :=
  if content.isEmpty then dflt
  else
    let c := pyStrip content
    match loads c with
    | some v => v
    | none =>
      match (searchFenceAny c).bind loads with
      | some v => v
      | none =>
        match (bruteObjGroup c).bind loads with
        | some v => v
        | none =>
          match (bruteArrGroup c).bind loads with
          | some v => v
          | none => dflt

/-! ### The ReAct agent loop of thinking_ReAct.py

call_llm_step and the two HTTP tools are passed in as oracles: the
LLM as a function from the call index (the value of step before the
call, counting from zero) to the streamed content/reasoning pair, and
each tool as a function from its action_input to the observation
text.  An AttributeError raised by decision.get on a truthy non-dict
decision is modeled as the jsonCrash exit of the run. -/

structure LLMResult where
  content : LC
  reasoning : LC

structure Msg where
  role : LC
  content : LC
deriving DecidableEq

inductive ToolCall where
  | search (arg : JVal)
  | visit (arg : JVal)
deriving DecidableEq

inductive ExitKind where
  | answered
  | emptyBreak
  | jsonCrash
  | maxStepsReached
deriving DecidableEq

structure RunRes where
  answer : Option JVal
  calls : Nat
  msgs : List Msg
  tools : List ToolCall
  exit : ExitKind
deriving DecidableEq

/-- Python str() as used by the f-strings of the loop; exact for
strings (the usual case for the action field), a JSON rendering
otherwise, where CPython would use its repr-style rendering. -/
def pyDisplay : JVal → LC
  | .str s => s
  | v => serialize v

/-- The system prompt of run_gemini_simulation. -/
def system_prompt : LC := S
  "\n    You are Gemini 3 Pro simulator.\n    \n    TOOLS:\n    1. \"search\": Use to find URLs. (Returns summaries only).\n    2. \"visit\": Use to read the EXTENSIVE content of a URL. \n       Note: This tool can fetch up to 40,000 characters. \n       USE THIS for technical reports, papers, or when looking for specific data points buried deep in text.\n    \n    PROTOCOL:\n    1. Output decision in STRICT JSON format.\n    \n    JSON FORMATS:\n    \n    [Search]:\n    \x7b\"thought\": \"Need to find external info...\", \"action\": \"search\", \"action_input\": \"query\"\x7d\n    \n    [Visit URL]:\n    \x7b\"thought\": \"Result #1 looks promising but summary is too short...\", \"action\": \"visit\", \"action_input\": \"https://url...\"\x7d\n    \n    [Answer]:\n    \x7b\"thought\": \"I have enough info...\", \"action\": \"answer\", \"action_input\": \"Final answer\"\x7d\n    "

def errNoJson : LC := S "Error: No valid JSON found. Please output ONLY JSON."

def maxStepsBound : Nat := 7

/-- One while-loop execution of run_gemini_simulation, with
fuel = max_steps - step, so the guard step < max_steps of the source
is fuel > 0; calls counts the LLM calls made from this point on. -/
def runLoop (oracle : Nat → LLMResult) (searchTool visitTool : JVal → LC) :
    Nat → Nat → List Msg → List ToolCall → RunRes
  | 0, _, ms, log => ⟨none, 0, ms, log, .maxStepsReached⟩
  | fuel + 1, step, ms, log =>
    let result := oracle step
    if result.content.isEmpty && result.reasoning.isEmpty then
      ⟨none, 1, ms, log, .emptyBreak⟩
    else
      let d0 := extract_json_from_text result.content
      let decision := if d0.truthy then d0
                      else extract_json_from_text result.reasoning
      if !decision.truthy then
        let r := runLoop oracle searchTool visitTool fuel (step + 1)
          (ms ++ [⟨S "user", errNoJson⟩]) log
        ⟨r.answer, r.calls + 1, r.msgs, r.tools, r.exit⟩
      else
        match decision with
        | .obj fs =>
          let action := dictGet fs (S "action") (JVal.str [])
          let actionInput := dictGet fs (S "action_input") (JVal.str [])
          if action = JVal.str (S "answer") then
            ⟨some actionInput, 1, ms, log, .answered⟩
          else
            let obs :=
              if action = JVal.str (S "search") then searchTool actionInput
              else if action = JVal.str (S "visit") then visitTool actionInput
              else S "Unknown action: " ++ pyDisplay action
            let log2 :=
              if action = JVal.str (S "search") then log ++ [.search actionInput]
              else if action = JVal.str (S "visit") then log ++ [.visit actionInput]
              else log
            let ms2 := ms ++
              [⟨S "assistant", serialize decision⟩,
               ⟨S "user", S "Observation from " ++ pyDisplay action ++
                          S ":\n" ++ obs⟩]
            let r := runLoop oracle searchTool visitTool fuel (step + 1) ms2 log2
            ⟨r.answer, r.calls + 1, r.msgs, r.tools, r.exit⟩
        | _ => ⟨none, 1, ms, log, .jsonCrash⟩

/-- run_gemini_simulation of thinking_ReAct.py. -/
def run_gemini_simulation (oracle : Nat → LLMResult)
    (searchTool visitTool : JVal → LC) (userQuery : LC) : RunRes :=
  runLoop oracle searchTool visitTool maxStepsBound 0
    [⟨S "system", system_prompt⟩, ⟨S "user", userQuery⟩] []

/-! ### Page aggregation of pdf2md.py's main

The thread pool and as_completed deliver the per-page results in an
arbitrary order; the completions list below is that delivery order.
The dict results is an insertion-ordered association list with
overwrite, exactly Python's dict. -/

def dictInsert (m : List (Nat × LC)) (k : Nat) (v : LC) : List (Nat × LC) :=
  if m.any (fun p => p.1 = k) then
    m.map (fun p => if p.1 = k then (k, v) else p)
  else m ++ [(k, v)]

def buildResults (completions : List (Nat × LC)) : List (Nat × LC) :=
  completions.foldl (fun m pv => dictInsert m pv.1 pv.2) []

def plookup (k : Nat) : List (Nat × LC) → Option LC
  | [] => none
  | p :: rest => if p.1 = k then some p.2 else plookup k rest

/-- "\n\n".join of Python. -/
def joinBlank : List LC → LC
  | [] => []
  | [x] => x
  | x :: y :: rest => x ++ '\n' :: '\n' :: joinBlank (y :: rest)

/-- The aggregation step of pdf2md.py's main: build the results dict
in completion order, sort the page numbers, join the page outputs
with blank lines. -/
def rawFullText (completions : List (Nat × LC)) : LC :=
  let results := buildResults completions
  let sortedPages := (results.map Prod.fst).insertionSort (· ≤ ·)
  joinBlank (sortedPages.map (fun p => (plookup p results).getD []))

/-! ### save_research / load_research of research_exa.py

The file body is the json.dump of the research dict (indent only adds
inter-token whitespace, which json.load ignores, so the compact
serializer stands in for it); datetime.now() is passed in. -/

structure ResearchStep where
  query : JVal
  step_type : JVal
  sources : JVal
  analysis : JVal
  reasoning : JVal
  timestamp : LC
deriving DecidableEq

/-- The ResearchStep constructor: sources defaults to [] when falsy
(the `sources or []` of __init__), timestamp is datetime.now(). -/
def mkResearchStep (query step_type sources analysis reasoning : JVal)
    (now : LC) : ResearchStep :=
  ⟨query, step_type, if sources.truthy then sources else .arr .nil,
   analysis, reasoning, now⟩

def stepToJson (s : ResearchStep) : JVal :=
  .obj (.cons (S "query") s.query
    (.cons (S "step_type") s.step_type
      (.cons (S "analysis") s.analysis
        (.cons (S "reasoning") s.reasoning
          (.cons (S "sources") s.sources
            (.cons (S "timestamp") (.str s.timestamp) .nil))))))

def stepsToJson : List ResearchStep → JArr
  | [] => .nil
  | s :: rest => .cons (stepToJson s) (stepsToJson rest)

/-- save_research: the serialized file content. -/
def save_research (query : LC) (steps : List ResearchStep) (now : LC) : LC :=
  serialize (.obj (.cons (S "query") (.str query)
    (.cons (S "timestamp") (.str now)
      (.cons (S "steps") (.arr (stepsToJson steps)) .nil))))

/-- Rebuild one ResearchStep from its loaded dict; none models the
KeyError/TypeError that indexing a missing key or a non-dict raises. -/
def jsonToStep (now : LC) : JVal → Option ResearchStep
  | .obj fs =>
    match JObj.lookupLast (S "query") fs, JObj.lookupLast (S "step_type") fs with
    | some q, some st =>
      some (mkResearchStep q st
        (dictGet fs (S "sources") (.arr .nil))
        (dictGet fs (S "analysis") (.str []))
        (dictGet fs (S "reasoning") (.str []))
        now)
    | _, _ => none
  | _ => none

def jsonToSteps (now : LC) : JArr → Option (List ResearchStep)
  | .nil => some []
  | .cons v tl =>
    match jsonToStep now v, jsonToSteps now tl with
    | some s, some l => some (s :: l)
    | _, _ => none

/-- load_research on a file body. -/
def load_research (fileContent : LC) (now : LC) :
    Option (JVal × List ResearchStep) :=
  match loads fileContent with
  | some (.obj fs) =>
    match JObj.lookupLast (S "query") fs, JObj.lookupLast (S "steps") fs with
    | some q, some (.arr l) =>
      match jsonToSteps now l with
      | some steps => some (q, steps)
      | none => none
    | _, _ => none
  | _ => none

/-! ### process_path of merge_codebase_context.py

The directory tree is a forest: the sibling list of one directory in
os.listdir order, where a directory node carries its own child
forest.  A file node carries a flag saying whether its bytes decode
as UTF-8 (reading errors are modeled by the same flag, since both
except branches skip the file alike). -/

inductive Forest where
  | empty
  | fileEntry (name : LC) (decodable : Bool) (content : LC) (rest : Forest)
  | dirEntry (name : LC) (children : Forest) (rest : Forest)

def IGNORE_DIRS : List LC :=
  [S ".git", S ".idea", S ".vscode", S "__pycache__", S "node_modules",
   S "dist", S "build", S "venv", S "env", S ".DS_Store", S "target", S "out"]

def IGNORE_FILES (outputFile : LC) : List LC :=
  [S ".DS_Store", S "package-lock.json", S "yarn.lock", S "pnpm-lock.yaml",
   outputFile, S "LICENSE", S ".gitignore"]

def BINARY_EXTENSIONS : List LC :=
  [S ".png", S ".jpg", S ".jpeg", S ".gif", S ".bmp", S ".ico", S ".svg",
   S ".webp", S ".mp4", S ".mp3", S ".wav", S ".pdf", S ".zip", S ".tar",
   S ".gz", S ".7z", S ".rar", S ".pyc", S ".exe", S ".dll", S ".so",
   S ".dylib", S ".class", S ".jar", S ".bin", S ".eot", S ".woff",
   S ".woff2", S ".ttf", S ".lock"]

def SCRIPT_EXTS : List LC :=
  [S ".py", S ".sh", S ".yaml", S ".yml", S ".conf", S ".ini", S ".rb",
   S ".pl", S ".dockerfile", S "makefile"]

/-- os.path.splitext on a basename: split before the last dot, unless
every character before that dot is itself a dot. -/
def splitExt (name : LC) : LC × LC :=
  let lead := name.takeWhile (fun c => c = '.')
  let rest := name.drop lead.length
  let afterRev := rest.reverse.takeWhile (fun c => c != '.')
  if afterRev.length = rest.length then (name, [])
  else
    let ext := (afterRev ++ ['.']).reverse
    (name.take (name.length - ext.length), ext)

def lowerExt (e : LC) : LC := e.map Char.toLower

/-- is_binary_file of merge_codebase_context.py. -/
def is_binary_file (name : LC) : Bool :=
  decide (lowerExt (splitExt name).2 ∈ BINARY_EXTENSIONS)

/-- get_comment_prefix of merge_codebase_context.py (the marker put
before the relative path). -/
def commentMarker (name : LC) : LC :=
  if lowerExt (splitExt name).2 ∈ SCRIPT_EXTS then S "# " else S "// "

/-- os.path.relpath of a file against the walk root, with / as
separator. -/
def relPath (dirs : List LC) (name : LC) : LC :=
  dirs.foldr (fun d acc => d ++ '/' :: acc) name

/-- The bytes written for one included file: marker, relative path,
newline, content, blank line. -/
def renderFile (dirs : List LC) (name : LC) (content : LC) : LC :=
  commentMarker name ++ relPath dirs name ++ '\n' :: content ++ ['\n', '\n']

/-- Whether one file passes every per-file filter of process_path. -/
def fileKept (outName name : LC) (decodable : Bool) (content : LC) : Bool :=
  !decide (name ∈ IGNORE_FILES outName) && !is_binary_file name &&
  decodable && !content.all isPyWs

/-- The files-of-this-directory pass of one os.walk step. -/
def processFiles (outName : LC) (dirs : List LC) : Forest → LC × Nat
  | .empty => ([], 0)
  | .fileEntry name dec content rest =>
    let r := processFiles outName dirs rest
    if fileKept outName name dec content then
      (renderFile dirs name content ++ r.1, r.2 + 1)
    else r
  | .dirEntry _ _ rest => processFiles outName dirs rest

/-- The recursive descent of os.walk with the in-place pruning of
dirs entries that are in IGNORE_DIRS. -/
def processSubdirs (outName : LC) (dirs : List LC) : Forest → LC × Nat
  | .empty => ([], 0)
  | .fileEntry _ _ _ rest => processSubdirs outName dirs rest
  | .dirEntry name ch rest =>
    let r := processSubdirs outName dirs rest
    if decide (name ∈ IGNORE_DIRS) then r
    else
      let f := processFiles outName (dirs ++ [name]) ch
      let d := processSubdirs outName (dirs ++ [name]) ch
      (f.1 ++ d.1 ++ r.1, f.2 + d.2 + r.2)

/-- process_path of merge_codebase_context.py: the whole output file
body and the returned count. -/
def process_path (outName : LC) (root : Forest) : LC × Nat :=
  let f := processFiles outName [] root
  let d := processSubdirs outName [] root
  (f.1 ++ d.1, f.2 + d.2)

/-- One file of the tree with the chain of directory names above it
(claim-side characterization; not used by process_path). -/
structure FileEntry where
  dirs : List LC
  name : LC
  decodable : Bool
  content : LC
deriving DecidableEq

/-- The files directly in one directory, in listing order. -/
def filesHere : Forest → List (LC × Bool × LC)
  | .empty => []
  | .fileEntry name dec content rest => (name, dec, content) :: filesHere rest
  | .dirEntry _ _ rest => filesHere rest

/-- All files strictly below the current directory, in walk order,
with no pruning. -/
def allSubFiles (dirs : List LC) : Forest → List FileEntry
  | .empty => []
  | .fileEntry _ _ _ rest => allSubFiles dirs rest
  | .dirEntry name ch rest =>
    (filesHere ch).map (fun e => ⟨dirs ++ [name], e.1, e.2.1, e.2.2⟩) ++
    allSubFiles (dirs ++ [name]) ch ++ allSubFiles dirs rest

/-- Every file of the tree, in walk order, with no pruning. -/
def allEntries (root : Forest) : List FileEntry :=
  (filesHere root).map (fun e => ⟨[], e.1, e.2.1, e.2.2⟩) ++ allSubFiles [] root

/-- The inclusion condition of the claim: not under an ignored
directory, not an ignored name, not a binary extension, decodable,
with non-whitespace content. -/
def entryIncluded (outName : LC) (e : FileEntry) : Bool :=
  e.dirs.all (fun d => !decide (d ∈ IGNORE_DIRS)) &&
  fileKept outName e.name e.decodable e.content

def renderEntry (e : FileEntry) : LC := renderFile e.dirs e.name e.content

/-- true when json.loads would not extend a number past this boundary:
the remainder is empty or starts with a non-digit. -/
def numBoundary : LC → Bool
  | [] => true
  | c :: _ => !c.isDigit

mutual
/-- Fuel sufficient for parseVal to parse the serialization of a value. -/
def jfuel : JVal → Nat
  | .null => 1
  | .bool _ => 1
  | .num _ => 1
  | .str _ => 1
  | .arr xs => 1 + jfuelA xs
  | .obj fs => 1 + jfuelO fs
def jfuelA : JArr → Nat
  | .nil => 0
  | .cons x tl => 1 + max (jfuel x) (jfuelA tl)
def jfuelO : JObj → Nat
  | .nil => 0
  | .cons _ v tl => 1 + max (jfuel v) (jfuelO tl)
end

/-! ## Helper lemmas -/

theorem dropWhile_append_cons (p : Char → Bool) (c : Char) (xs ys : LC)
    (h : ¬ p c) : (xs ++ c :: ys).dropWhile p = xs.dropWhile p ++ c :: ys := by
  induction xs with
  | nil => simp [List.dropWhile_cons, h]
  | cons a l ih => by_cases hp : p a <;> simp [List.dropWhile_cons, hp, ih]

theorem takeWhile_append_cons (p : Char → Bool) (c : Char) (xs ys : LC)
    (hxs : ∀ x ∈ xs, p x) (h : ¬ p c) :
    (xs ++ c :: ys).takeWhile p = xs := by
  induction xs with
  | nil => simp [List.takeWhile_cons, h]
  | cons a l ih =>
    simp only [List.cons_append, List.takeWhile_cons, hxs a (by simp)]
    simp [ih (fun x hx => hxs x (by simp [hx]))]

theorem dropWhile_append_all (p : Char → Bool) (c : Char) (xs ys : LC)
    (hxs : ∀ x ∈ xs, p x) (h : ¬ p c) :
    (xs ++ c :: ys).dropWhile p = c :: ys := by
  induction xs with
  | nil => simp [List.dropWhile_cons, h]
  | cons a l ih =>
    simp only [List.cons_append, List.dropWhile_cons, hxs a (by simp)]
    simp [ih (fun x hx => hxs x (by simp [hx]))]

theorem mem_of_mem_dropWhile {p : Char → Bool} {c : Char} {xs : LC}
    (h : c ∈ xs.dropWhile p) : c ∈ xs :=
  List.IsSuffix.mem h (List.dropWhile_suffix p)

theorem char_ne_of_toNat_ne {a b : Char} (h : a.toNat ≠ b.toNat) : a ≠ b :=
  fun e => h (by rw [e])

theorem isDigit_toNat {c : Char} (h : c.isDigit = true) :
    48 ≤ c.toNat ∧ c.toNat ≤ 57 := by
  simpa [Char.isDigit] using h

theorem digit_char_spec {n : Nat} (h : n < 10) :
    (Char.ofNat (48 + n)).toNat = 48 + n ∧ (Char.ofNat (48 + n)).isDigit = true := by
  interval_cases n <;> exact ⟨by decide, by decide⟩

/-! Digits and numbers. -/

theorem digitsVal_append_singleton (xs : LC) (c : Char) :
    digitsVal (xs ++ [c]) = digitsVal xs * 10 + (c.toNat - 48) := by
  simp [digitsVal, List.foldl_append]

theorem natCharsAux_spec : ∀ fuel n, n < fuel →
    digitsVal (natCharsAux fuel n) = n ∧
    (∀ c ∈ natCharsAux fuel n, c.isDigit = true) ∧
    (∃ c cs, natCharsAux fuel n = c :: cs ∧ (0 < n → c ≠ '0')) := by
  intro fuel
  induction fuel with
  | zero => intro n h; omega
  | succ f ih =>
    intro n h
    by_cases h10 : n < 10
    · refine ⟨?_, ?_, ?_⟩
      · simp [natCharsAux, h10, digitsVal]
        have := (digit_char_spec h10).1
        omega
      · intro c hc
        simp [natCharsAux, h10] at hc
        subst hc
        exact (digit_char_spec h10).2
      · refine ⟨Char.ofNat (48 + n), [], by simp [natCharsAux, h10], ?_⟩
        intro hn he
        have h1 := (digit_char_spec h10).1
        rw [he] at h1
        have h2 : ('0').toNat = 48 := by decide
        omega
    · have hdiv : n / 10 < f := by
        have := Nat.div_lt_self (by omega : 0 < n) (by omega : 1 < 10)
        omega
      have hmod : n % 10 < 10 := Nat.mod_lt _ (by omega)
      obtain ⟨ihv, ihd, c0, cs0, ihsh, ihhd⟩ := ih (n / 10) hdiv
      refine ⟨?_, ?_, ?_⟩
      · simp only [natCharsAux, if_neg h10]
        rw [digitsVal_append_singleton, ihv, (digit_char_spec hmod).1]
        omega
      · intro c hc
        simp only [natCharsAux, if_neg h10, List.mem_append, List.mem_singleton] at hc
        rcases hc with hc | hc
        · exact ihd c hc
        · subst hc; exact (digit_char_spec hmod).2
      · refine ⟨c0, cs0 ++ [Char.ofNat (48 + n % 10)], ?_, fun _ => ?_⟩
        · simp only [natCharsAux, if_neg h10, ihsh]
          simp
        · exact ihhd (by omega)

theorem natChars_spec (n : Nat) :
    digitsVal (natChars n) = n ∧
    (∀ c ∈ natChars n, c.isDigit = true) ∧
    (∃ c cs, natChars n = c :: cs ∧ (0 < n → c ≠ '0')) :=
  natCharsAux_spec (n + 1) n (by omega)

theorem parseNatPart_natChars (n : Nat) (rest : LC) (h : numBoundary rest = true) :
    parseNatPart (natChars n ++ rest) = some (n, rest) := by
  obtain ⟨hval, hdig, c, cs, hsh, hhd⟩ := natChars_spec n
  by_cases h0 : n = 0
  · subst h0
    have : natChars 0 = ['0'] := by decide
    rw [this]
    simp [parseNatPart]
  · rw [hsh]
    have hcd : c.isDigit = true := hdig c (by rw [hsh]; simp)
    have hc0 : c ≠ '0' := hhd (by omega)
    have hall : ∀ x ∈ cs, Char.isDigit x = true := by
      intro x hx; exact hdig x (by rw [hsh]; simp [hx])
    simp only [List.cons_append, parseNatPart]
    rw [if_neg hc0, if_pos hcd]
    cases rest with
    | nil =>
      simp only [List.append_nil]
      rw [List.takeWhile_eq_self_iff.mpr hall, List.dropWhile_eq_nil_iff.mpr hall]
      rw [show c :: cs = natChars n from hsh.symm, hval]
    | cons r rs =>
      have hr : ¬ (r.isDigit = true) := by
        simp [numBoundary] at h
        simp [h]
      rw [takeWhile_append_cons _ _ _ _ hall hr, dropWhile_append_all _ _ _ _ hall hr]
      rw [show c :: cs = natChars n from hsh.symm, hval]

theorem natChars_head_digit (n : Nat) :
    ∃ c cs, natChars n = c :: cs ∧ c.isDigit = true := by
  obtain ⟨_, hdig, c, cs, hsh, _⟩ := natChars_spec n
  exact ⟨c, cs, hsh, hdig c (by rw [hsh]; simp)⟩

theorem parseIntPart_intChars (n : Int) (rest : LC) (h : numBoundary rest = true) :
    parseIntPart (intChars n ++ rest) = some (n, rest) := by
  cases n with
  | ofNat m =>
    obtain ⟨c, cs, hsh, hcd⟩ := natChars_head_digit m
    have hcm : c ≠ '-' := by
      have h1 := isDigit_toNat hcd
      have h2 : ('-').toNat = 45 := by decide
      exact char_ne_of_toNat_ne (by omega)
    simp only [intChars, hsh, List.cons_append, parseIntPart, if_neg hcm]
    rw [← List.cons_append, ← hsh, parseNatPart_natChars m rest h]
    rfl
  | negSucc m =>
    simp only [intChars, List.cons_append, parseIntPart, if_pos rfl]
    rw [parseNatPart_natChars (m + 1) rest h]
    simp [Int.negSucc_eq]

/-! String literal round trip. -/

theorem hexVal_hexDigit {k : Nat} (h : k < 16) : hexVal (hexDigit k) = some k := by
  interval_cases k <;> decide

theorem escapeStr_cons (c : Char) (s : LC) :
    escapeStr (c :: s) = escapeChar c ++ escapeStr s := rfl

theorem parseStrBody_ord (c : Char) (tail : LC) (hq : c ≠ '"') (hb : c ≠ '\\')
    (hc : ¬ c.toNat < 32) :
    parseStrBody (c :: tail) =
      match parseStrBody tail with
      | some (tl, r) => some (c :: tl, r)
      | none => none := by
  simp only [parseStrBody]
  rw [if_neg hq, if_neg hb, if_neg hc]

theorem parseStrBody_escQ (tail : LC) :
    parseStrBody ('\\' :: '"' :: tail) =
      match parseStrBody tail with
      | some (tl, r) => some ('"' :: tl, r)
      | none => none := rfl

theorem parseStrBody_escB (tail : LC) :
    parseStrBody ('\\' :: '\\' :: tail) =
      match parseStrBody tail with
      | some (tl, r) => some ('\\' :: tl, r)
      | none => none := rfl

theorem parseStrBody_escN (tail : LC) :
    parseStrBody ('\\' :: 'n' :: tail) =
      match parseStrBody tail with
      | some (tl, r) => some ('\n' :: tl, r)
      | none => none := rfl

theorem parseStrBody_escT (tail : LC) :
    parseStrBody ('\\' :: 't' :: tail) =
      match parseStrBody tail with
      | some (tl, r) => some ('\t' :: tl, r)
      | none => none := rfl

theorem parseStrBody_escR (tail : LC) :
    parseStrBody ('\\' :: 'r' :: tail) =
      match parseStrBody tail with
      | some (tl, r) => some (Char.ofNat 13 :: tl, r)
      | none => none := rfl

theorem parseStrBody_escBS (tail : LC) :
    parseStrBody ('\\' :: 'b' :: tail) =
      match parseStrBody tail with
      | some (tl, r) => some (Char.ofNat 8 :: tl, r)
      | none => none := rfl

theorem parseStrBody_escF (tail : LC) :
    parseStrBody ('\\' :: 'f' :: tail) =
      match parseStrBody tail with
      | some (tl, r) => some (Char.ofNat 12 :: tl, r)
      | none => none := rfl

theorem parseStrBody_escU (d1 d2 : Char) (a b : Nat) (tail : LC)
    (h1 : hexVal d1 = some a) (h2 : hexVal d2 = some b) :
    parseStrBody ('\\' :: 'u' :: '0' :: '0' :: d1 :: d2 :: tail) =
      match parseStrBody tail with
      | some (tl, r) => some (Char.ofNat (0 * 4096 + 0 * 256 + a * 16 + b) :: tl, r)
      | none => none := by
  have step : parseStrBody ('\\' :: 'u' :: '0' :: '0' :: d1 :: d2 :: tail) =
      match hexVal '0', hexVal '0', hexVal d1, hexVal d2 with
      | some a, some b, some c3, some d =>
        (match parseStrBody tail with
         | some (tl, r) => some (Char.ofNat (a * 4096 + b * 256 + c3 * 16 + d) :: tl, r)
         | none => none)
      | _, _, _, _ => none := rfl
  rw [step, h1, h2]
  rfl

theorem parseStrBody_escape (s : LC) : ∀ rest,
    parseStrBody (escapeStr s ++ '"' :: rest) = some (s, rest) := by
  induction s with
  | nil =>
    intro rest
    simp only [escapeStr, List.foldr_nil, List.nil_append]
    rfl
  | cons c s ih =>
    intro rest
    rw [escapeStr_cons, List.append_assoc]
    by_cases hq : c = '"'
    · subst hq; rw [show escapeChar '"' = ['\\', '"'] from rfl]
      simp only [List.cons_append, List.nil_append, parseStrBody_escQ, ih rest]
    · by_cases hbs : c = '\\'
      · subst hbs; rw [show escapeChar '\\' = ['\\', '\\'] from rfl]
        simp only [List.cons_append, List.nil_append, parseStrBody_escB, ih rest]
      · by_cases hn : c = '\n'
        · subst hn; rw [show escapeChar '\n' = ['\\', 'n'] from rfl]
          simp only [List.cons_append, List.nil_append, parseStrBody_escN, ih rest]
        · by_cases ht : c = '\t'
          · subst ht; rw [show escapeChar '\t' = ['\\', 't'] from rfl]
            simp only [List.cons_append, List.nil_append, parseStrBody_escT, ih rest]
          · by_cases hr : c = Char.ofNat 13
            · subst hr; rw [show escapeChar (Char.ofNat 13) = ['\\', 'r'] from rfl]
              simp only [List.cons_append, List.nil_append, parseStrBody_escR, ih rest]
            · by_cases hb : c = Char.ofNat 8
              · subst hb; rw [show escapeChar (Char.ofNat 8) = ['\\', 'b'] from rfl]
                simp only [List.cons_append, List.nil_append, parseStrBody_escBS, ih rest]
              · by_cases hf : c = Char.ofNat 12
                · subst hf; rw [show escapeChar (Char.ofNat 12) = ['\\', 'f'] from rfl]
                  simp only [List.cons_append, List.nil_append, parseStrBody_escF, ih rest]
                · by_cases hlt : c.toNat < 32
                  · rw [show escapeChar c =
                        ['\\', 'u', '0', '0', hexDigit (c.toNat / 16),
                         hexDigit (c.toNat % 16)] from by
                      simp only [escapeChar, if_neg hq, if_neg hbs, if_neg hn,
                        if_neg ht, if_neg hr, if_neg hb, if_neg hf, if_pos hlt]]
                    simp only [List.cons_append, List.nil_append]
                    rw [parseStrBody_escU _ _ _ _ _
                        (hexVal_hexDigit (by omega : c.toNat / 16 < 16))
                        (hexVal_hexDigit (by omega : c.toNat % 16 < 16)), ih rest]
                    have harith : 0 * 4096 + 0 * 256 + c.toNat / 16 * 16 + c.toNat % 16
                        = c.toNat := by omega
                    rw [harith, Char.ofNat_toNat]
                  · rw [show escapeChar c = [c] from by
                      simp only [escapeChar, if_neg hq, if_neg hbs, if_neg hn,
                        if_neg ht, if_neg hr, if_neg hb, if_neg hf, if_neg hlt]]
                    simp only [List.cons_append, List.nil_append]
                    rw [parseStrBody_ord c _ hq hbs hlt, ih rest]

/-! Value round trip: parsing a dumped value gives the value back. -/

theorem isPrefixOf_append_self (l r : LC) : l.isPrefixOf (l ++ r) = true :=
  List.isPrefixOf_iff_prefix.mpr (List.prefix_append l r)

theorem num_head_facts {c : Char} (h : c = '-' ∨ c.isDigit = true) :
    c ≠ '"' ∧ c ≠ lbrace ∧ c ≠ '[' ∧ c ≠ 't' ∧ c ≠ 'f' ∧ c ≠ 'n' ∧
    isJsonWs c = false ∧ isPyWs c = false ∧ c ≠ ']' ∧ c ≠ rbrace ∧ c ≠ ',' := by
  rcases h with h | h
  · subst h
    refine ⟨by decide, by decide, by decide, by decide, by decide, by decide,
      by decide, by decide, by decide, by decide, by decide⟩
  · have hne : ∀ d : Char, d.toNat < 48 ∨ 57 < d.toNat → c ≠ d := by
      intro d hd
      obtain ⟨hlo, hhi⟩ := isDigit_toNat h
      exact char_ne_of_toNat_ne (by omega)
    have hsp : c ≠ ' ' := hne ' ' (by decide)
    have htb : c ≠ '\t' := hne '\t' (by decide)
    have hnl : c ≠ '\n' := hne '\n' (by decide)
    have hcr : c ≠ Char.ofNat 13 := hne (Char.ofNat 13) (by decide)
    have hvt : c ≠ Char.ofNat 11 := hne (Char.ofNat 11) (by decide)
    have hff : c ≠ Char.ofNat 12 := hne (Char.ofNat 12) (by decide)
    refine ⟨hne '"' (by decide), hne lbrace (by decide), hne '[' (by decide),
      hne 't' (by decide), hne 'f' (by decide), hne 'n' (by decide),
      by simp [isJsonWs, hsp, htb, hnl, hcr],
      by simp [isPyWs, isJsonWs, hsp, htb, hnl, hcr, hvt, hff],
      hne ']' (by decide), hne rbrace (by decide), hne ',' (by decide)⟩

theorem intChars_head (n : Int) :
    ∃ c cs, intChars n = c :: cs ∧ (c = '-' ∨ c.isDigit = true) := by
  cases n with
  | ofNat m =>
    obtain ⟨c, cs, hsh, hd⟩ := natChars_head_digit m
    exact ⟨c, cs, hsh, Or.inr hd⟩
  | negSucc m => exact ⟨'-', natChars (m + 1), rfl, Or.inl rfl⟩

/-- The first character of a dumped value: never whitespace and never
a closing delimiter or separator. -/
theorem serialize_head (v : JVal) :
    ∃ c cs, serialize v = c :: cs ∧ isJsonWs c = false ∧ isPyWs c = false ∧
      c ≠ ']' ∧ c ≠ rbrace ∧ c ≠ ',' := by
  cases v with
  | null => exact ⟨'n', _, rfl, by decide, by decide, by decide, by decide, by decide⟩
  | bool b =>
    cases b with
    | true => exact ⟨'t', _, rfl, by decide, by decide, by decide, by decide, by decide⟩
    | false => exact ⟨'f', _, rfl, by decide, by decide, by decide, by decide, by decide⟩
  | num n =>
    obtain ⟨c, cs, hsh, hd⟩ := intChars_head n
    obtain ⟨_, _, _, _, _, _, hws, hpws, hrb, hrc, hcm⟩ := num_head_facts hd
    exact ⟨c, cs, by simp [serialize, hsh], hws, hpws, hrb, hrc, hcm⟩
  | str s =>
    exact ⟨'"', _, rfl, by decide, by decide, by decide, by decide, by decide⟩
  | arr xs =>
    cases xs with
    | nil => exact ⟨'[', _, rfl, by decide, by decide, by decide, by decide, by decide⟩
    | cons x tl =>
      exact ⟨'[', _, rfl, by decide, by decide, by decide, by decide, by decide⟩
  | obj fs =>
    cases fs with
    | nil => exact ⟨lbrace, _, rfl, by decide, by decide, by decide, by decide, by decide⟩
    | cons k v tl =>
      exact ⟨lbrace, _, rfl, by decide, by decide, by decide, by decide, by decide⟩

theorem skipWs_serialize_append (v : JVal) (a : LC) :
    skipWs (serialize v ++ a) = serialize v ++ a := by
  obtain ⟨c, cs, hsh, hws, _⟩ := serialize_head v
  rw [hsh]
  simp [skipWs, List.dropWhile_cons, hws]

/-! One-step unfold lemmas for the parser at the relevant heads. -/

theorem parseVal_n_step (f : Nat) (rest : LC) : parseVal (f + 1) ('n' :: rest) =
    (if (S "ull").isPrefixOf rest then some (.null, rest.drop 3) else none) := rfl

theorem parseVal_t_step (f : Nat) (rest : LC) : parseVal (f + 1) ('t' :: rest) =
    (if (S "rue").isPrefixOf rest then some (.bool true, rest.drop 3) else none) := rfl

theorem parseVal_f_step (f : Nat) (rest : LC) : parseVal (f + 1) ('f' :: rest) =
    (if (S "alse").isPrefixOf rest then some (.bool false, rest.drop 4) else none) := rfl

theorem parseVal_quote_step (f : Nat) (tail : LC) : parseVal (f + 1) ('"' :: tail) =
    (match parseStrBody tail with
     | some (s, r) => some (.str s, r)
     | none => none) := rfl

theorem parseVal_lbrace_step (f : Nat) (rest : LC) : parseVal (f + 1) (lbrace :: rest) =
    (match skipWs rest with
     | [] => none
     | d :: rest2 =>
       if d = rbrace then some (.obj .nil, rest2)
       else
         match parseFields f (d :: rest2) with
         | some (fs, r) => some (.obj fs, r)
         | none => none) := rfl

theorem parseVal_lbrack_step (f : Nat) (rest : LC) : parseVal (f + 1) ('[' :: rest) =
    (match skipWs rest with
     | [] => none
     | d :: rest2 =>
       if d = ']' then some (.arr .nil, rest2)
       else
         match parseElems f (d :: rest2) with
         | some (xs, r) => some (.arr xs, r)
         | none => none) := rfl

theorem parseVal_num_step (f : Nat) (c : Char) (rest : LC)
    (h : c = '-' ∨ c.isDigit = true) :
    parseVal (f + 1) (c :: rest) =
    (match parseIntPart (c :: rest) with
     | some (n, r) => some (.num n, r)
     | none => none) := by
  obtain ⟨h1, h2, h3, h4, h5, h6, _⟩ := num_head_facts h
  simp only [parseVal]
  rw [if_neg h1, if_neg h2, if_neg h3, if_neg h4, if_neg h5, if_neg h6, if_pos]
  rcases h with h | h
  · simp [h]
  · simp [h]

theorem numBoundary_arrTail (tl : JArr) (rest : LC) :
    numBoundary (serializeArrTail tl ++ ']' :: rest) = true := by
  cases tl with
  | nil => simp [serializeArrTail, numBoundary]
  | cons y tl2 => simp [serializeArrTail, numBoundary]

theorem numBoundary_objTail (tl : JObj) (rest : LC) :
    numBoundary (serializeObjTail tl ++ rbrace :: rest) = true := by
  cases tl with
  | nil => simp [serializeObjTail, numBoundary]; decide
  | cons k v tl2 => simp [serializeObjTail, numBoundary]

theorem jfuel_pos (v : JVal) : 1 ≤ jfuel v := by
  cases v <;> simp [jfuel]

theorem parseVal_lbrack_cons (f : Nat) (d : Char) (r2 : LC) (hws : isJsonWs d = false) :
    parseVal (f + 1) ('[' :: d :: r2) =
      (if d = ']' then some (.arr .nil, r2)
       else
         match parseElems f (d :: r2) with
         | some (xs, r) => some (.arr xs, r)
         | none => none) := by
  rw [parseVal_lbrack_step, show skipWs (d :: r2) = d :: r2 from by
    simp [skipWs, List.dropWhile_cons, hws]]

theorem parseVal_lbrace_cons (f : Nat) (d : Char) (r2 : LC) (hws : isJsonWs d = false) :
    parseVal (f + 1) (lbrace :: d :: r2) =
      (if d = rbrace then some (.obj .nil, r2)
       else
         match parseFields f (d :: r2) with
         | some (fs, r) => some (.obj fs, r)
         | none => none) := by
  rw [parseVal_lbrace_step, show skipWs (d :: r2) = d :: r2 from by
    simp [skipWs, List.dropWhile_cons, hws]]

mutual
theorem parseVal_serialize (v : JVal) : ∀ (f : Nat) (rest : LC),
    jfuel v ≤ f + 1 → numBoundary rest = true →
    parseVal (f + 1) (serialize v ++ rest) = some (v, rest) := by
  cases v with
  | null =>
    intro f rest _ _
    rw [show serialize JVal.null = ['n', 'u', 'l', 'l'] from rfl]
    rw [show (['n', 'u', 'l', 'l'] : LC) ++ rest = 'n' :: (['u', 'l', 'l'] ++ rest) from rfl]
    rw [parseVal_n_step, show S "ull" = (['u', 'l', 'l'] : LC) from rfl,
      if_pos (isPrefixOf_append_self ['u', 'l', 'l'] rest),
      show ((['u', 'l', 'l'] : LC) ++ rest).drop 3 = rest from by simp]
  | bool b =>
    intro f rest _ _
    cases b with
    | true =>
      rw [show serialize (JVal.bool true) = ['t', 'r', 'u', 'e'] from rfl]
      rw [show (['t', 'r', 'u', 'e'] : LC) ++ rest = 't' :: (['r', 'u', 'e'] ++ rest) from rfl]
      rw [parseVal_t_step, show S "rue" = (['r', 'u', 'e'] : LC) from rfl,
        if_pos (isPrefixOf_append_self ['r', 'u', 'e'] rest),
        show ((['r', 'u', 'e'] : LC) ++ rest).drop 3 = rest from by simp]
    | false =>
      rw [show serialize (JVal.bool false) = ['f', 'a', 'l', 's', 'e'] from rfl]
      rw [show (['f', 'a', 'l', 's', 'e'] : LC) ++ rest
          = 'f' :: (['a', 'l', 's', 'e'] ++ rest) from rfl]
      rw [parseVal_f_step, show S "alse" = (['a', 'l', 's', 'e'] : LC) from rfl,
        if_pos (isPrefixOf_append_self ['a', 'l', 's', 'e'] rest),
        show ((['a', 'l', 's', 'e'] : LC) ++ rest).drop 4 = rest from by simp]
  | num n =>
    intro f rest _ hb
    obtain ⟨c, cs, hsh, hd⟩ := intChars_head n
    rw [show serialize (JVal.num n) = intChars n from rfl, hsh, List.cons_append,
      parseVal_num_step f c _ hd, ← List.cons_append, ← hsh,
      parseIntPart_intChars n rest hb]
  | str s =>
    intro f rest _ _
    rw [show serialize (JVal.str s) ++ rest
        = '"' :: (escapeStr s ++ '"' :: rest) from by
      simp [serialize, serializeStr, List.append_assoc]]
    rw [parseVal_quote_step, parseStrBody_escape s rest]
  | arr xs =>
    intro f rest hf _
    cases xs with
    | nil =>
      rw [show serialize (JVal.arr JArr.nil) ++ rest = '[' :: ']' :: rest from rfl]
      rw [parseVal_lbrack_cons f ']' rest (by decide), if_pos rfl]
    | cons x tl =>
      obtain ⟨c, cs, hsh, hws, _, hrb, _, _⟩ := serialize_head x
      rw [show serialize (JVal.arr (JArr.cons x tl)) ++ rest
          = '[' :: (serialize x ++ (serializeArrTail tl ++ ']' :: rest)) from by
        simp [serialize, List.append_assoc]]
      rw [hsh, List.cons_append, parseVal_lbrack_cons f c _ hws, if_neg hrb,
        ← List.cons_append, ← hsh, ← List.append_assoc]
      have hfa : jfuelA (JArr.cons x tl) ≤ f := by
        have h1 : jfuel (JVal.arr (JArr.cons x tl)) = 1 + jfuelA (JArr.cons x tl) := rfl
        omega
      rw [parseElems_serialize x tl f rest hfa]
  | obj fs =>
    intro f rest hf _
    cases fs with
    | nil =>
      rw [show serialize (JVal.obj JObj.nil) ++ rest = lbrace :: rbrace :: rest from rfl]
      rw [parseVal_lbrace_cons f rbrace rest (by decide), if_pos rfl]
    | cons k v tl =>
      rw [show serialize (JVal.obj (JObj.cons k v tl)) ++ rest
          = lbrace :: ('"' :: (escapeStr k ++ '"' :: (':' :: ' ' :: serialize v ++
              (serializeObjTail tl ++ rbrace :: rest)))) from by
        simp [serialize, serializeStr, List.append_assoc]]
      rw [parseVal_lbrace_cons f '"' _ (by decide), if_neg (by decide : ('"' : Char) ≠ rbrace)]
      have hfo : jfuelO (JObj.cons k v tl) ≤ f := by
        have h1 : jfuel (JVal.obj (JObj.cons k v tl)) = 1 + jfuelO (JObj.cons k v tl) := rfl
        omega
      rw [show ('"' :: (escapeStr k ++ '"' :: (':' :: ' ' :: serialize v ++
              (serializeObjTail tl ++ rbrace :: rest))) : LC)
          = serializeStr k ++ ':' :: ' ' :: serialize v ++
              serializeObjTail tl ++ rbrace :: rest from by
        simp [serializeStr, List.append_assoc]]
      rw [parseFields_serialize k v tl f rest hfo]
termination_by sizeOf v

theorem parseElems_serialize (x : JVal) (tl : JArr) : ∀ (f : Nat) (rest : LC),
    jfuelA (JArr.cons x tl) ≤ f →
    parseElems f (serialize x ++ serializeArrTail tl ++ ']' :: rest) =
      some (JArr.cons x tl, rest) := by
  intro f rest hf
  have hfa : jfuelA (JArr.cons x tl) = 1 + max (jfuel x) (jfuelA tl) := rfl
  have hx0 := jfuel_pos x
  obtain ⟨f3, rfl⟩ : ∃ f3, f = f3 + 2 := ⟨f - 2, by omega⟩
  have hstep : parseElems (f3 + 2)
      (serialize x ++ serializeArrTail tl ++ ']' :: rest) =
      (match parseVal (f3 + 1)
          (serialize x ++ serializeArrTail tl ++ ']' :: rest) with
       | none => none
       | some (v, r) =>
         match skipWs r with
         | ',' :: r2 =>
           (match parseElems (f3 + 1) (skipWs r2) with
            | some (tl, r3) => some (JArr.cons v tl, r3)
            | none => none)
         | ']' :: r2 => some (JArr.cons v JArr.nil, r2)
         | _ => none) := rfl
  rw [hstep, List.append_assoc,
    parseVal_serialize x f3 (serializeArrTail tl ++ ']' :: rest)
      (by omega) (numBoundary_arrTail tl rest)]
  cases tl with
  | nil => rfl
  | cons y tl2 =>
    rw [show serializeArrTail (JArr.cons y tl2) ++ ']' :: rest
        = ',' :: ' ' :: (serialize y ++ (serializeArrTail tl2 ++ ']' :: rest)) from by
      simp [serializeArrTail, List.append_assoc]]
    show (match parseElems (f3 + 1)
        (skipWs (serialize y ++ (serializeArrTail tl2 ++ ']' :: rest))) with
      | some (tl, r3) => some (JArr.cons x tl, r3)
      | none => none) = some (JArr.cons x (JArr.cons y tl2), rest)
    rw [skipWs_serialize_append, ← List.append_assoc,
      parseElems_serialize y tl2 (f3 + 1) rest
        (by have h1 : jfuelA (JArr.cons x (JArr.cons y tl2))
              = 1 + max (jfuel x) (jfuelA (JArr.cons y tl2)) := rfl
            omega)]
termination_by 1 + sizeOf x + sizeOf tl

theorem parseFields_serialize (k : LC) (v : JVal) (tl : JObj) : ∀ (f : Nat) (rest : LC),
    jfuelO (JObj.cons k v tl) ≤ f →
    parseFields f (serializeStr k ++ ':' :: ' ' :: serialize v ++
        serializeObjTail tl ++ rbrace :: rest) =
      some (JObj.cons k v tl, rest) := by
  intro f rest hf
  have hfo : jfuelO (JObj.cons k v tl) = 1 + max (jfuel v) (jfuelO tl) := rfl
  have hv0 := jfuel_pos v
  obtain ⟨f3, rfl⟩ : ∃ f3, f = f3 + 2 := ⟨f - 2, by omega⟩
  rw [show serializeStr k ++ ':' :: ' ' :: serialize v ++
        serializeObjTail tl ++ rbrace :: rest
      = '"' :: (escapeStr k ++ '"' :: (':' :: ' ' :: (serialize v ++
          (serializeObjTail tl ++ rbrace :: rest)))) from by
    simp [serializeStr, List.append_assoc]]
  have hstep : parseFields (f3 + 2)
      ('"' :: (escapeStr k ++ '"' :: (':' :: ' ' :: (serialize v ++
          (serializeObjTail tl ++ rbrace :: rest))))) =
      (match parseStrBody (escapeStr k ++ '"' :: (':' :: ' ' :: (serialize v ++
          (serializeObjTail tl ++ rbrace :: rest)))) with
       | none => none
       | some (kk, r) =>
         match skipWs r with
         | ':' :: r2 =>
           (match parseVal (f3 + 1) (skipWs r2) with
            | none => none
            | some (vv, r3) =>
              match skipWs r3 with
              | ',' :: r4 =>
                (match parseFields (f3 + 1) (skipWs r4) with
                 | some (tl, r5) => some (JObj.cons kk vv tl, r5)
                 | none => none)
              | d :: r4 => if d = rbrace then some (JObj.cons kk vv JObj.nil, r4) else none
              | [] => none)
         | _ => none) := rfl
  rw [hstep, parseStrBody_escape k]
  show (match parseVal (f3 + 1)
      (skipWs (serialize v ++ (serializeObjTail tl ++ rbrace :: rest))) with
    | none => none
    | some (vv, r3) =>
      match skipWs r3 with
      | ',' :: r4 =>
        (match parseFields (f3 + 1) (skipWs r4) with
         | some (tl, r5) => some (JObj.cons k vv tl, r5)
         | none => none)
      | d :: r4 => if d = rbrace then some (JObj.cons k vv JObj.nil, r4) else none
      | [] => none) = some (JObj.cons k v tl, rest)
  rw [skipWs_serialize_append,
    parseVal_serialize v f3 _ (by omega) (numBoundary_objTail tl rest)]
  cases tl with
  | nil => rfl
  | cons k2 v2 tl2 =>
    rw [show serializeObjTail (JObj.cons k2 v2 tl2) ++ rbrace :: rest
        = ',' :: ' ' :: (serializeStr k2 ++ ':' :: ' ' :: serialize v2 ++
            serializeObjTail tl2 ++ rbrace :: rest) from by
      simp [serializeObjTail, List.append_assoc]]
    show (match parseFields (f3 + 1)
        (skipWs (serializeStr k2 ++ ':' :: ' ' :: serialize v2 ++
            serializeObjTail tl2 ++ rbrace :: rest)) with
      | some (tl, r5) => some (JObj.cons k v tl, r5)
      | none => none) = some (JObj.cons k v (JObj.cons k2 v2 tl2), rest)
    rw [show skipWs (serializeStr k2 ++ ':' :: ' ' :: serialize v2 ++
            serializeObjTail tl2 ++ rbrace :: rest)
        = serializeStr k2 ++ ':' :: ' ' :: serialize v2 ++
            serializeObjTail tl2 ++ rbrace :: rest from by
      simp [serializeStr, skipWs, List.dropWhile_cons,
        show isJsonWs '"' = false from by decide]]
    rw [parseFields_serialize k2 v2 tl2 (f3 + 1) rest
      (by have h1 : jfuelO (JObj.cons k v (JObj.cons k2 v2 tl2))
            = 1 + max (jfuel v) (jfuelO (JObj.cons k2 v2 tl2)) := rfl
          omega)]
termination_by 1 + sizeOf v + sizeOf tl
end

mutual
theorem jfuel_le_len (v : JVal) : jfuel v ≤ (serialize v).length := by
  cases v with
  | null => simp [jfuel, serialize, S]
  | bool b => cases b <;> simp [jfuel, serialize, S]
  | num n =>
    obtain ⟨c, cs, hsh, _⟩ := intChars_head n
    simp [jfuel, serialize, hsh]
  | str s => simp [jfuel, serialize, serializeStr]
  | arr xs =>
    cases xs with
    | nil => simp [jfuel, jfuelA, serialize, S]
    | cons x tl =>
      have h1 := jfuelA_le_len x tl
      have h2 : (serialize (JVal.arr (JArr.cons x tl))).length
          = 1 + ((serialize x).length + ((serializeArrTail tl).length + 1)) := by
        simp [serialize]
        omega
      have h3 : jfuel (JVal.arr (JArr.cons x tl)) = 1 + jfuelA (JArr.cons x tl) := rfl
      omega
  | obj fs =>
    cases fs with
    | nil => simp [jfuel, jfuelO, serialize]
    | cons k v tl =>
      have h1 := jfuelO_le_len k v tl
      have h2 : (serialize (JVal.obj (JObj.cons k v tl))).length
          = 1 + ((serializeStr k).length + (1 + (1 + ((serialize v).length +
              ((serializeObjTail tl).length + 1))))) := by
        simp [serialize]
        omega
      have h3 : jfuel (JVal.obj (JObj.cons k v tl)) = 1 + jfuelO (JObj.cons k v tl) := rfl
      have h4 : 1 ≤ (serializeStr k).length := by simp [serializeStr]
      omega
termination_by sizeOf v

theorem jfuelA_le_len (x : JVal) (tl : JArr) :
    jfuelA (JArr.cons x tl) ≤ (serialize x).length + (serializeArrTail tl).length + 1 := by
  have hx := jfuel_le_len x
  have h1 : jfuelA (JArr.cons x tl) = 1 + max (jfuel x) (jfuelA tl) := rfl
  cases tl with
  | nil =>
    have h2 : jfuelA JArr.nil = 0 := rfl
    omega
  | cons y tl2 =>
    have h3 := jfuelA_le_len y tl2
    have h4 : (serializeArrTail (JArr.cons y tl2)).length
        = 2 + ((serialize y).length + (serializeArrTail tl2).length) := by
      simp [serializeArrTail]
      omega
    omega
termination_by 1 + sizeOf x + sizeOf tl

theorem jfuelO_le_len (k : LC) (v : JVal) (tl : JObj) :
    jfuelO (JObj.cons k v tl) ≤ (serialize v).length + (serializeObjTail tl).length + 1 := by
  have hv := jfuel_le_len v
  have h1 : jfuelO (JObj.cons k v tl) = 1 + max (jfuel v) (jfuelO tl) := rfl
  cases tl with
  | nil =>
    have h2 : jfuelO JObj.nil = 0 := rfl
    omega
  | cons k2 v2 tl2 =>
    have h3 := jfuelO_le_len k2 v2 tl2
    have h4 : (serializeObjTail (JObj.cons k2 v2 tl2)).length
        = 2 + ((serializeStr k2).length + (2 + ((serialize v2).length +
            (serializeObjTail tl2).length))) := by
      simp [serializeObjTail]
      omega
    have h5 : 1 ≤ (serializeStr k2).length := by simp [serializeStr]
    omega
termination_by 1 + sizeOf v + sizeOf tl
end

/-- json.loads inverts json.dumps on every modeled value. -/
theorem loads_serialize (v : JVal) : loads (serialize v) = some v := by
  have hl := jfuel_le_len v
  obtain ⟨c, cs, hsh, hws, _⟩ := serialize_head v
  have h1 : skipWs (serialize v) = serialize v := by
    rw [hsh]
    simp [skipWs, List.dropWhile_cons, hws]
  have hlen : 1 ≤ (serialize v).length := by rw [hsh]; simp
  obtain ⟨m, hm⟩ : ∃ m, (serialize v).length = m + 1 :=
    ⟨(serialize v).length - 1, by omega⟩
  have h2 := parseVal_serialize v (m + 1) [] (by omega) (by rfl)
  rw [List.append_nil] at h2
  simp only [loads, h1, hm, h2]
  rfl

/-! ## Claim C1: the two extraction functions -/

theorem loads_nil : loads ([] : LC) = none := rfl

/-- C1 (counterexample): the two JSON-extraction functions are not
extensionally equal.  On a fenced JSON array, extract_json_from_response
returns the array (its fence pattern accepts any group and it has an
array fallback), while extract_json_from_text returns None (its fence
pattern requires braces and its bracket scan finds no left brace). -/
theorem extract_functions_differ :
    extract_json_from_response (S "```[1, 2]```") JVal.null ≠
      extract_json_from_text (S "```[1, 2]```") ∧
    extract_json_from_response (S "```[1, 2]```") JVal.null =
      JVal.arr (.cons (.num 1) (.cons (.num 2) .nil)) ∧
    extract_json_from_text (S "```[1, 2]```") = JVal.null := by
  refine ⟨?_, by decide, by decide⟩
  decide

/-- C1 (amended): the two extraction functions agree on every input
that parses directly as JSON and carries no leading or trailing
whitespace: both return the parsed value.  (Their fence and bracket
fallback strategies are inequivalent, see the counterexample.) -/
theorem extract_functions_agree_on_direct_json (s : LC) (v : JVal)
    (h1 : loads s = some v) (h2 : pyStrip s = s) :
    extract_json_from_response s JVal.null = v ∧
    extract_json_from_text s = v := by
  have hne : s.isEmpty = false := by
    cases s with
    | nil => rw [loads_nil] at h1; cases h1
    | cons a l => rfl
  constructor
  · simp only [extract_json_from_response, hne, Bool.false_eq_true, if_false, h2, h1]
  · simp only [extract_json_from_text, hne, Bool.false_eq_true, if_false, h1]

theorem extract_functions_agree_witness :
    extract_json_from_response (S "\x7b\"a\": 1\x7d") JVal.null
      = JVal.obj (.cons (S "a") (.num 1) .nil) ∧
    extract_json_from_text (S "\x7b\"a\": 1\x7d")
      = JVal.obj (.cons (S "a") (.num 1) .nil) :=
  extract_functions_agree_on_direct_json (S "\x7b\"a\": 1\x7d")
    (JVal.obj (.cons (S "a") (.num 1) .nil)) (by decide) (by decide)

/-! ## Claim C3: three strategies, then the default -/

/-- C3: each extraction function tries exactly its strategies in
order — direct json.loads, markdown code-fence extraction, then
brute-force bracket search (object, and for research_exa.py also
array) — and returns the first success; when every strategy fails it
returns the default (None) rather than raising.  Totality is inherent:
both functions are plain Lean functions. -/
theorem extraction_three_strategies :
    (∀ text : LC,
      extract_json_from_text text =
        (((loads text).orElse (fun _ => (searchFenceBrace text).bind loads)).orElse
          (fun _ => (braceBalancedSlice text).bind loads)).getD JVal.null) ∧
    (∀ (content : LC) (dflt : JVal),
      extract_json_from_response content dflt =
        if content.isEmpty then dflt else
        ((((loads (pyStrip content)).orElse
            (fun _ => (searchFenceAny (pyStrip content)).bind loads)).orElse
          (fun _ => (bruteObjGroup (pyStrip content)).bind loads)).orElse
          (fun _ => (bruteArrGroup (pyStrip content)).bind loads)).getD dflt) ∧
    (∀ text : LC, loads text = none → (searchFenceBrace text).bind loads = none →
      (braceBalancedSlice text).bind loads = none →
      extract_json_from_text text = JVal.null) ∧
    (∀ (content : LC) (dflt : JVal), loads (pyStrip content) = none →
      (searchFenceAny (pyStrip content)).bind loads = none →
      (bruteObjGroup (pyStrip content)).bind loads = none →
      (bruteArrGroup (pyStrip content)).bind loads = none →
      extract_json_from_response content dflt = dflt) := by
  have hA : ∀ text : LC,
      extract_json_from_text text =
        (((loads text).orElse (fun _ => (searchFenceBrace text).bind loads)).orElse
          (fun _ => (braceBalancedSlice text).bind loads)).getD JVal.null := by
    intro text
    by_cases he : text.isEmpty
    · have : text = [] := by cases text with
        | nil => rfl
        | cons a l => simp [List.isEmpty] at he
      subst this
      rfl
    · simp only [extract_json_from_text, he, Bool.false_eq_true, if_false]
      cases h1 : loads text with
      | some v => simp [Option.orElse]
      | none =>
        cases h2 : (searchFenceBrace text).bind loads with
        | some v => simp [Option.orElse]
        | none =>
          cases h3 : (braceBalancedSlice text).bind loads with
          | some v => simp [Option.orElse]
          | none => simp [Option.orElse]
  have hB : ∀ (content : LC) (dflt : JVal),
      extract_json_from_response content dflt =
        if content.isEmpty then dflt else
        ((((loads (pyStrip content)).orElse
            (fun _ => (searchFenceAny (pyStrip content)).bind loads)).orElse
          (fun _ => (bruteObjGroup (pyStrip content)).bind loads)).orElse
          (fun _ => (bruteArrGroup (pyStrip content)).bind loads)).getD dflt := by
    intro content dflt
    by_cases he : content.isEmpty
    · simp only [extract_json_from_response, he, if_true]
    · simp only [extract_json_from_response, he, Bool.false_eq_true, if_false]
      cases h1 : loads (pyStrip content) with
      | some v => simp [Option.orElse]
      | none =>
        cases h2 : (searchFenceAny (pyStrip content)).bind loads with
        | some v => simp [Option.orElse]
        | none =>
          cases h3 : (bruteObjGroup (pyStrip content)).bind loads with
          | some v => simp [Option.orElse]
          | none =>
            cases h4 : (bruteArrGroup (pyStrip content)).bind loads with
            | some v => simp [Option.orElse]
            | none => simp [Option.orElse]
  refine ⟨hA, hB, ?_, ?_⟩
  · intro text h1 h2 h3
    rw [hA text, h1, h2, h3]
    rfl
  · intro content dflt h1 h2 h3 h4
    rw [hB content dflt, h1, h2, h3, h4]
    by_cases he : content.isEmpty <;> simp [he]

theorem extraction_three_strategies_witness :
    extract_json_from_text (S "no json here") = JVal.null ∧
    extract_json_from_response (S "no json here") JVal.null = JVal.null :=
  ⟨extraction_three_strategies.2.2.1 (S "no json here")
      (by decide) (by decide) (by decide),
    extraction_three_strategies.2.2.2 (S "no json here") JVal.null
      (by decide) (by decide) (by decide) (by decide)⟩

/-! ## Claim C2: fence-wrapped payload extraction

First: json.loads fails on any input whose first backtick is not
preceded by a double quote (strategy 1 of both functions on a fenced
response).  The parser can pass a backtick only inside a string
literal, whose opening quote would come earlier. -/

theorem prefix_length_le {l p q : LC} {c : Char}
    (h : l.isPrefixOf (p ++ c :: q) = true) (hc : c ∉ l) : l.length ≤ p.length := by
  induction l generalizing p with
  | nil => simp
  | cons a l2 ih =>
    cases p with
    | nil =>
      simp only [List.nil_append, List.isPrefixOf] at h
      have : a = c := by
        cases hbe : a == c with
        | false => rw [hbe] at h; simp at h
        | true => exact eq_of_beq hbe
      exact absurd (this ▸ List.mem_cons_self a l2) hc
    | cons b p2 =>
      simp only [List.cons_append, List.isPrefixOf, Bool.and_eq_true] at h
      have := ih (p := p2) h.2 (fun hm => hc (List.mem_cons_of_mem a hm))
      simp only [List.length_cons]
      omega

theorem split_before {p q d rest : LC} {c : Char}
    (h : p ++ c :: q = d ++ rest) (hc : c ∉ d) :
    ∃ p2, rest = p2 ++ c :: q ∧ p = d ++ p2 := by
  induction d generalizing p with
  | nil => exact ⟨p, by simpa using h.symm, by simp⟩
  | cons a d2 ih =>
    cases p with
    | nil =>
      simp only [List.nil_append, List.cons_append, List.cons.injEq] at h
      exact absurd (h.1 ▸ List.mem_cons_self a d2) hc
    | cons b p2 =>
      simp only [List.cons_append, List.cons.injEq] at h
      obtain ⟨p3, h1, h2⟩ := ih (p := p2) h.2 (fun hm => hc (List.mem_cons_of_mem a hm))
      exact ⟨p3, h1, by simp [h.1, h2]⟩

theorem parseNatPart_split {t : LC} {n : Nat} {rest : LC}
    (h : parseNatPart t = some (n, rest)) :
    ∃ d, t = d ++ rest ∧ btick ∉ d := by
  cases t with
  | nil => cases h
  | cons c r =>
    simp only [parseNatPart] at h
    by_cases h0 : c = '0'
    · rw [if_pos h0] at h
      have h2 : rest = r := ((Prod.ext_iff.mp (Option.some.inj h)).2).symm
      subst h0
      exact ⟨['0'], by simp [h2], by decide⟩
    · rw [if_neg h0] at h
      by_cases hd : c.isDigit = true
      · rw [if_pos hd] at h
        have h2 : rest = r.dropWhile Char.isDigit :=
          ((Prod.ext_iff.mp (Option.some.inj h)).2).symm
        refine ⟨c :: r.takeWhile Char.isDigit, ?_, ?_⟩
        · rw [h2, List.cons_append, List.takeWhile_append_dropWhile]
        · intro hm
          rcases List.mem_cons.mp hm with hm | hm
          · rw [← hm] at hd
            exact absurd hd (by decide)
          · exact absurd (List.mem_takeWhile_imp hm) (by decide)
      · rw [if_neg hd] at h
        cases h

theorem parseIntPart_split {t : LC} {n : Int} {rest : LC}
    (h : parseIntPart t = some (n, rest)) :
    ∃ d, t = d ++ rest ∧ btick ∉ d := by
  cases t with
  | nil => cases h
  | cons c r =>
    simp only [parseIntPart] at h
    by_cases hm : c = '-'
    · rw [if_pos hm] at h
      cases hn : parseNatPart r with
      | none => rw [hn] at h; cases h
      | some p =>
        obtain ⟨m, r2⟩ := p
        rw [hn] at h
        have h3 : some (-(m : Int), r2) = some (n, rest) := h
        have h2 : rest = r2 := ((Prod.ext_iff.mp (Option.some.inj h3)).2).symm
        obtain ⟨d, hd1, hd2⟩ := parseNatPart_split hn
        refine ⟨c :: d, by simp [hd1, h2], ?_⟩
        intro hmem
        rcases List.mem_cons.mp hmem with hh | hh
        · exact absurd (hh.trans hm) (by decide)
        · exact hd2 hh
    · rw [if_neg hm] at h
      cases hn : parseNatPart (c :: r) with
      | none => rw [hn] at h; cases h
      | some p =>
        obtain ⟨m, r2⟩ := p
        rw [hn] at h
        have h3 : some ((m : Int), r2) = some (n, rest) := h
        have h2 : rest = r2 := ((Prod.ext_iff.mp (Option.some.inj h3)).2).symm
        obtain ⟨d, hd1, hd2⟩ := parseNatPart_split hn
        exact ⟨d, by rw [hd1, h2], hd2⟩

theorem parseVal_btick (f : Nat) (q : LC) : parseVal f (btick :: q) = none := by
  cases f with
  | zero => rfl
  | succ f2 => rfl

theorem parseFields_btick (f : Nat) (q : LC) : parseFields f (btick :: q) = none := by
  cases f with
  | zero => rfl
  | succ f2 => rfl

theorem btick_barrier : ∀ f : Nat,
    (∀ t v rest p q, parseVal f t = some (v, rest) → t = p ++ btick :: q →
      '"' ∉ p → btick ∉ p →
      ∃ p2, rest = p2 ++ btick :: q ∧ '"' ∉ p2 ∧ btick ∉ p2) ∧
    (∀ t xs rest p q, parseElems f t = some (xs, rest) → t = p ++ btick :: q →
      '"' ∉ p → btick ∉ p →
      ∃ p2, rest = p2 ++ btick :: q ∧ '"' ∉ p2 ∧ btick ∉ p2) ∧
    (∀ t fs rest p q, parseFields f t = some (fs, rest) → t = p ++ btick :: q →
      '"' ∉ p → btick ∉ p →
      ∃ p2, rest = p2 ++ btick :: q ∧ '"' ∉ p2 ∧ btick ∉ p2) := by
  intro f
  induction f with
  | zero =>
    refine ⟨?_, ?_, ?_⟩ <;> intro t a rest p q h _ _ _ <;> cases h
  | succ f ih =>
    obtain ⟨ihV, ihE, ihF⟩ := ih
    have partV : ∀ t v rest p q, parseVal (f + 1) t = some (v, rest) →
        t = p ++ btick :: q → '"' ∉ p → btick ∉ p →
        ∃ p2, rest = p2 ++ btick :: q ∧ '"' ∉ p2 ∧ btick ∉ p2 := by
      intro t v rest p q h ht hq hb
      subst ht
      cases p with
      | nil =>
        rw [List.nil_append, parseVal_btick] at h
        cases h
      | cons c p' =>
        have hcq : c ≠ '"' := fun he => hq (by simp [he])
        have hcb : c ≠ btick := fun he => hb (by simp [he])
        have hq' : '"' ∉ p' := fun hm => hq (List.mem_cons_of_mem _ hm)
        have hb' : btick ∉ p' := fun hm => hb (List.mem_cons_of_mem _ hm)
        rw [List.cons_append] at h
        simp only [parseVal] at h
        rw [if_neg hcq] at h
        have hskip : skipWs (p' ++ btick :: q) = skipWs p' ++ btick :: q :=
          dropWhile_append_cons _ _ _ _ (by decide)
        by_cases hc2 : c = lbrace
        · rw [if_pos hc2, hskip] at h
          cases hsp : skipWs p' with
          | nil =>
            rw [hsp, List.nil_append] at h
            have h2 : (match parseFields f (btick :: q) with
                | some (fs, r) => some (JVal.obj fs, r)
                | none => none) = some (v, rest) := h
            rw [parseFields_btick] at h2
            cases (show (none : Option (JVal × LC)) = some (v, rest) from h2)
          | cons d p3 =>
            rw [hsp, List.cons_append] at h
            have hd_mem : ∀ x ∈ d :: p3, x ∈ p' := by
              intro x hx
              have hx2 : x ∈ skipWs p' := by rw [hsp]; exact hx
              exact mem_of_mem_dropWhile hx2
            have hq3 : '"' ∉ p3 := fun hm => hq' (hd_mem _ (List.mem_cons_of_mem _ hm))
            have hb3 : btick ∉ p3 := fun hm => hb' (hd_mem _ (List.mem_cons_of_mem _ hm))
            have hdq : d ≠ '"' := fun he => hq' (he ▸ hd_mem _ (List.mem_cons_self _ _))
            have hdb : d ≠ btick := fun he => hb' (he ▸ hd_mem _ (List.mem_cons_self _ _))
            have h2 : (if d = rbrace then some (JVal.obj JObj.nil, p3 ++ btick :: q)
                else match parseFields f (d :: (p3 ++ btick :: q)) with
                  | some (fs, r) => some (JVal.obj fs, r)
                  | none => none) = some (v, rest) := h
            by_cases hd : d = rbrace
            · rw [if_pos hd] at h2
              have hr := (Prod.ext_iff.mp (Option.some.inj h2)).2
              exact ⟨p3, hr.symm, hq3, hb3⟩
            · rw [if_neg hd] at h2
              cases hpf : parseFields f (d :: (p3 ++ btick :: q)) with
              | none =>
                rw [hpf] at h2
                cases (show (none : Option (JVal × LC)) = some (v, rest) from h2)
              | some pr =>
                obtain ⟨fs2, r2⟩ := pr
                rw [hpf] at h2
                have h3 : some (JVal.obj fs2, r2) = some (v, rest) := h2
                have hr : r2 = rest := (Prod.ext_iff.mp (Option.some.inj h3)).2
                obtain ⟨p4, hp4, hp4q, hp4b⟩ := ihF _ fs2 r2 (d :: p3) q hpf
                  (by simp) (by
                    simp only [List.mem_cons, not_or]
                    exact ⟨fun he => hdq he.symm, hq3⟩) (by
                    simp only [List.mem_cons, not_or]
                    exact ⟨fun he => hdb he.symm, hb3⟩)
                exact ⟨p4, hr ▸ hp4, hp4q, hp4b⟩
        · rw [if_neg hc2] at h
          by_cases hc3 : c = '['
          · rw [if_pos hc3, hskip] at h
            cases hsp : skipWs p' with
            | nil =>
              rw [hsp, List.nil_append] at h
              have h2 : (match parseElems f (btick :: q) with
                  | some (xs, r) => some (JVal.arr xs, r)
                  | none => none) = some (v, rest) := h
              have hpe : parseElems f (btick :: q) = none := by
                cases f with
                | zero => rfl
                | succ f2 => simp only [parseElems, parseVal_btick]
              rw [hpe] at h2
              cases (show (none : Option (JVal × LC)) = some (v, rest) from h2)
            | cons d p3 =>
              rw [hsp, List.cons_append] at h
              have hd_mem : ∀ x ∈ d :: p3, x ∈ p' := by
                intro x hx
                have hx2 : x ∈ skipWs p' := by rw [hsp]; exact hx
                exact mem_of_mem_dropWhile hx2
              have hq3 : '"' ∉ p3 := fun hm => hq' (hd_mem _ (List.mem_cons_of_mem _ hm))
              have hb3 : btick ∉ p3 := fun hm => hb' (hd_mem _ (List.mem_cons_of_mem _ hm))
              have hdq : d ≠ '"' := fun he => hq' (he ▸ hd_mem _ (List.mem_cons_self _ _))
              have hdb : d ≠ btick := fun he => hb' (he ▸ hd_mem _ (List.mem_cons_self _ _))
              have h2 : (if d = ']' then some (JVal.arr JArr.nil, p3 ++ btick :: q)
                  else match parseElems f (d :: (p3 ++ btick :: q)) with
                    | some (xs, r) => some (JVal.arr xs, r)
                    | none => none) = some (v, rest) := h
              by_cases hd : d = ']'
              · rw [if_pos hd] at h2
                have hr := (Prod.ext_iff.mp (Option.some.inj h2)).2
                exact ⟨p3, hr.symm, hq3, hb3⟩
              · rw [if_neg hd] at h2
                cases hpe : parseElems f (d :: (p3 ++ btick :: q)) with
                | none =>
                  rw [hpe] at h2
                  cases (show (none : Option (JVal × LC)) = some (v, rest) from h2)
                | some pr =>
                  obtain ⟨xs2, r2⟩ := pr
                  rw [hpe] at h2
                  have h3 : some (JVal.arr xs2, r2) = some (v, rest) := h2
                  have hr : r2 = rest := (Prod.ext_iff.mp (Option.some.inj h3)).2
                  obtain ⟨p4, hp4, hp4q, hp4b⟩ := ihE _ xs2 r2 (d :: p3) q hpe
                    (by simp) (by
                    simp only [List.mem_cons, not_or]
                    exact ⟨fun he => hdq he.symm, hq3⟩) (by
                      simp only [List.mem_cons, not_or]
                      exact ⟨fun he => hdb he.symm, hb3⟩)
                  exact ⟨p4, hr ▸ hp4, hp4q, hp4b⟩
          · rw [if_neg hc3] at h
            by_cases hc4 : c = 't'
            · rw [if_pos hc4] at h
              by_cases hpre : (S "rue").isPrefixOf (p' ++ btick :: q) = true
              · rw [if_pos hpre] at h
                have hlen : (S "rue").length ≤ p'.length :=
                  prefix_length_le hpre (by decide)
                have hlen3 : 3 ≤ p'.length := by
                  have : (S "rue").length = 3 := rfl
                  omega
                have hdrop : (p' ++ btick :: q).drop 3 = p'.drop 3 ++ btick :: q :=
                  List.drop_append_of_le_length hlen3
                have hr : (p' ++ btick :: q).drop 3 = rest :=
                  congrArg Prod.snd (Option.some.inj h)
                refine ⟨p'.drop 3, by rw [← hr, hdrop], ?_, ?_⟩
                · exact fun hm => hq' (List.drop_subset _ _ hm)
                · exact fun hm => hb' (List.drop_subset _ _ hm)
              · rw [if_neg hpre] at h
                cases h
            · rw [if_neg hc4] at h
              by_cases hc5 : c = 'f'
              · rw [if_pos hc5] at h
                by_cases hpre : (S "alse").isPrefixOf (p' ++ btick :: q) = true
                · rw [if_pos hpre] at h
                  have hlen : (S "alse").length ≤ p'.length :=
                    prefix_length_le hpre (by decide)
                  have hlen4 : 4 ≤ p'.length := by
                    have : (S "alse").length = 4 := rfl
                    omega
                  have hdrop : (p' ++ btick :: q).drop 4 = p'.drop 4 ++ btick :: q :=
                    List.drop_append_of_le_length hlen4
                  have hr : (p' ++ btick :: q).drop 4 = rest :=
                    congrArg Prod.snd (Option.some.inj h)
                  refine ⟨p'.drop 4, by rw [← hr, hdrop], ?_, ?_⟩
                  · exact fun hm => hq' (List.drop_subset _ _ hm)
                  · exact fun hm => hb' (List.drop_subset _ _ hm)
                · rw [if_neg hpre] at h
                  cases h
              · rw [if_neg hc5] at h
                by_cases hc6 : c = 'n'
                · rw [if_pos hc6] at h
                  by_cases hpre : (S "ull").isPrefixOf (p' ++ btick :: q) = true
                  · rw [if_pos hpre] at h
                    have hlen : (S "ull").length ≤ p'.length :=
                      prefix_length_le hpre (by decide)
                    have hlen3 : 3 ≤ p'.length := by
                      have : (S "ull").length = 3 := rfl
                      omega
                    have hdrop : (p' ++ btick :: q).drop 3 = p'.drop 3 ++ btick :: q :=
                      List.drop_append_of_le_length hlen3
                    have hr : (p' ++ btick :: q).drop 3 = rest :=
                      congrArg Prod.snd (Option.some.inj h)
                    refine ⟨p'.drop 3, by rw [← hr, hdrop], ?_, ?_⟩
                    · exact fun hm => hq' (List.drop_subset _ _ hm)
                    · exact fun hm => hb' (List.drop_subset _ _ hm)
                  · rw [if_neg hpre] at h
                    cases h
                · rw [if_neg hc6] at h
                  by_cases hc7 : (decide (c = '-') || c.isDigit) = true
                  · rw [if_pos hc7] at h
                    cases hpi : parseIntPart (c :: (p' ++ btick :: q)) with
                    | none =>
                      rw [hpi] at h
                      cases (show (none : Option (JVal × LC)) = some (v, rest) from h)
                    | some pr =>
                      obtain ⟨n2, r2⟩ := pr
                      rw [hpi] at h
                      have h3 : some (JVal.num n2, r2) = some (v, rest) := h
                      have hr : r2 = rest := (Prod.ext_iff.mp (Option.some.inj h3)).2
                      obtain ⟨dd, hd1, hd2⟩ := parseIntPart_split hpi
                      rw [show c :: (p' ++ btick :: q) = (c :: p') ++ btick :: q from rfl]
                        at hd1
                      obtain ⟨p2, hp2, hp2e⟩ := split_before hd1 hd2
                      refine ⟨p2, hr ▸ hp2, ?_, ?_⟩
                      · intro hm
                        exact hq (hp2e ▸ List.mem_append_right dd hm)
                      · intro hm
                        exact hb (hp2e ▸ List.mem_append_right dd hm)
                  · rw [if_neg hc7] at h
                    cases h
    refine ⟨partV, ?_, ?_⟩
    · intro t xs rest p q h ht hq hb
      subst ht
      simp only [parseElems] at h
      cases hpv : parseVal f (p ++ btick :: q) with
      | none =>
        rw [hpv] at h
        cases (show (none : Option (JArr × LC)) = some (xs, rest) from h)
      | some pr =>
        obtain ⟨v, r⟩ := pr
        rw [hpv] at h
        obtain ⟨p2, hr2, hq2, hb2⟩ := ihV _ v r p q hpv rfl hq hb
        subst hr2
        have hskip : skipWs (p2 ++ btick :: q) = skipWs p2 ++ btick :: q :=
          dropWhile_append_cons _ _ _ _ (by decide)
        have h2 : (match skipWs (p2 ++ btick :: q) with
            | ',' :: r2 =>
              (match parseElems f (skipWs r2) with
               | some (tl, r3) => some (JArr.cons v tl, r3)
               | none => none)
            | ']' :: r2 => some (JArr.cons v JArr.nil, r2)
            | _ => none) = some (xs, rest) := h
        rw [hskip] at h2
        cases hsp : skipWs p2 with
        | nil =>
          rw [hsp, List.nil_append] at h2
          cases (show (none : Option (JArr × LC)) = some (xs, rest) from h2)
        | cons d p3 =>
          rw [hsp, List.cons_append] at h2
          have hd_mem : ∀ x ∈ d :: p3, x ∈ p2 := by
            intro x hx
            have hx2 : x ∈ skipWs p2 := by rw [hsp]; exact hx
            exact mem_of_mem_dropWhile hx2
          have hq3 : '"' ∉ p3 := fun hm => hq2 (hd_mem _ (List.mem_cons_of_mem _ hm))
          have hb3 : btick ∉ p3 := fun hm => hb2 (hd_mem _ (List.mem_cons_of_mem _ hm))
          have hdq : d ≠ '"' := fun he => hq2 (he ▸ hd_mem _ (List.mem_cons_self _ _))
          have hdb : d ≠ btick := fun he => hb2 (he ▸ hd_mem _ (List.mem_cons_self _ _))
          split at h2
          · rename_i x r2 heq
            obtain ⟨hdc, htail⟩ := List.cons.inj heq
            subst htail
            have hskip3 : skipWs (p3 ++ btick :: q) = skipWs p3 ++ btick :: q :=
              dropWhile_append_cons _ _ _ _ (by decide)
            cases hpe : parseElems f (skipWs (p3 ++ btick :: q)) with
            | none =>
              rw [hpe] at h2
              cases (show (none : Option (JArr × LC)) = some (xs, rest) from h2)
            | some pr2 =>
              obtain ⟨tl2, r3⟩ := pr2
              rw [hpe] at h2
              have h4 : some (JArr.cons v tl2, r3) = some (xs, rest) := h2
              have hr : r3 = rest := congrArg Prod.snd (Option.some.inj h4)
              rw [hskip3] at hpe
              obtain ⟨p4, hp4, hp4q, hp4b⟩ := ihE _ tl2 r3 (skipWs p3) q hpe rfl
                (fun hm => hq3 (mem_of_mem_dropWhile hm))
                (fun hm => hb3 (mem_of_mem_dropWhile hm))
              exact ⟨p4, hr ▸ hp4, hp4q, hp4b⟩
          · rename_i x r2 heq
            obtain ⟨hdc, htail⟩ := List.cons.inj heq
            have hr : r2 = rest := congrArg Prod.snd (Option.some.inj h2)
            exact ⟨p3, by rw [← hr, ← htail], hq3, hb3⟩
          · cases h2
    · intro t fs rest p q h ht hq hb
      subst ht
      cases p with
      | nil =>
        rw [List.nil_append, parseFields_btick] at h
        cases h
      | cons c p' =>
        have hcq : c ≠ '"' := fun he => hq (by simp [he])
        have hq' : '"' ∉ p' := fun hm => hq (List.mem_cons_of_mem _ hm)
        rw [List.cons_append] at h
        have h2 : (if c = '"' then
            (match parseStrBody (p' ++ btick :: q) with
             | none => none
             | some (k, r) =>
               match skipWs r with
               | ':' :: r2 =>
                 (match parseVal f (skipWs r2) with
                  | none => none
                  | some (v, r3) =>
                    match skipWs r3 with
                    | ',' :: r4 =>
                      (match parseFields f (skipWs r4) with
                       | some (tl, r5) => some (JObj.cons k v tl, r5)
                       | none => none)
                    | d :: r4 => if d = rbrace then some (JObj.cons k v JObj.nil, r4)
                        else none
                    | [] => none)
               | _ => none)
          else none) = some (fs, rest) := h
        rw [if_neg hcq] at h2
        cases h2

theorem loads_none_of_btick (p q : LC) (hq : '"' ∉ p) (hb : btick ∉ p) :
    loads (p ++ btick :: q) = none := by
  have hskip : skipWs (p ++ btick :: q) = skipWs p ++ btick :: q :=
    dropWhile_append_cons _ _ _ _ (by decide)
  have hq' : '"' ∉ skipWs p := fun hm => hq (mem_of_mem_dropWhile hm)
  have hb' : btick ∉ skipWs p := fun hm => hb (mem_of_mem_dropWhile hm)
  unfold loads
  rw [hskip]
  cases hpv : parseVal ((p ++ btick :: q).length + 1) (skipWs p ++ btick :: q) with
  | none => rfl
  | some pr =>
    obtain ⟨v, rest⟩ := pr
    obtain ⟨p2, hr2, hq2, hb2⟩ :=
      (btick_barrier _).1 _ v rest (skipWs p) q hpv rfl hq' hb'
    subst hr2
    have hskip2 : skipWs (p2 ++ btick :: q) = skipWs p2 ++ btick :: q :=
      dropWhile_append_cons _ _ _ _ (by decide)
    have hne : (skipWs (p2 ++ btick :: q)).isEmpty = false := by
      rw [hskip2]; cases skipWs p2 <;> rfl
    show (if (skipWs (p2 ++ btick :: q)).isEmpty = true then some v else none) = none
    simp [hne]

theorem triple_btick_head_ne (c : Char) (t : LC) (hc : c ≠ btick) :
    [btick, btick, btick].isPrefixOf (c :: t) = false := by
  show (btick == c && [btick, btick].isPrefixOf t) = false
  have : (btick == c) = false := beq_eq_false_iff_ne.mpr fun he => hc he.symm
  rw [this, Bool.false_and]

theorem fenceAhead_false_before_rbrace (a z : LC) (hb : btick ∉ a) :
    fenceAhead (a ++ rbrace :: z) = false := by
  unfold fenceAhead skipPyWs
  rw [dropWhile_append_cons _ _ _ _ (by decide)]
  cases hda : a.dropWhile isPyWs with
  | nil => rw [List.nil_append]; exact triple_btick_head_ne _ _ (by decide)
  | cons d a2 =>
    rw [List.cons_append]
    refine triple_btick_head_ne _ _ fun he => hb ?_
    have : d ∈ a.dropWhile isPyWs := by rw [hda]; exact List.mem_cons_self _ _
    exact he ▸ mem_of_mem_dropWhile this

theorem lazyBraceScan_exact (mid post : LC) (hb : btick ∉ mid) :
    lazyBraceScan (mid ++ rbrace :: '\n' :: btick :: btick :: btick :: post) =
      some (mid ++ [rbrace]) := by
  induction mid with
  | nil =>
    show lazyBraceScan (rbrace :: '\n' :: btick :: btick :: btick :: post) = _
    unfold lazyBraceScan
    rw [if_pos]
    · rfl
    · show (decide (rbrace = rbrace) &&
        fenceAhead ('\n' :: btick :: btick :: btick :: post)) = true
      have h1 : fenceAhead ('\n' :: btick :: btick :: btick :: post) = true := by
        show [btick, btick, btick].isPrefixOf
          (List.dropWhile isPyWs ('\n' :: btick :: btick :: btick :: post)) = true
        rw [List.dropWhile_cons_of_pos (by decide),
            List.dropWhile_cons_of_neg (by decide)]
        simp [List.isPrefixOf]
      rw [h1, decide_eq_true rfl, Bool.and_self]
  | cons c mid ih =>
    have hcb : c ≠ btick := fun he => hb (by simp [he])
    have hb' : btick ∉ mid := fun hm => hb (List.mem_cons_of_mem _ hm)
    rw [List.cons_append]
    unfold lazyBraceScan
    have hcond : (decide (c = rbrace) &&
        fenceAhead (mid ++ rbrace :: '\n' :: btick :: btick :: btick :: post)) = false := by
      rw [fenceAhead_false_before_rbrace _ _ hb', Bool.and_false]
    rw [hcond]
    simp only [Bool.false_eq_true, if_false]
    rw [ih hb']
    rfl

theorem lazyAnyScan_exact (mid post : LC) (hb : btick ∉ mid) :
    lazyAnyScan (mid ++ rbrace :: '\n' :: btick :: btick :: btick :: post) =
      some (mid ++ [rbrace]) := by
  induction mid with
  | nil =>
    show lazyAnyScan (rbrace :: '\n' :: btick :: btick :: btick :: post) = _
    unfold lazyAnyScan
    have h0 : fenceAhead (rbrace :: '\n' :: btick :: btick :: btick :: post) = false := by
      exact fenceAhead_false_before_rbrace [] _ (by simp)
    rw [h0]
    simp only [Bool.false_eq_true, if_false]
    have h1 : lazyAnyScan ('\n' :: btick :: btick :: btick :: post) = some [] := by
      unfold lazyAnyScan
      rw [if_pos]
      show [btick, btick, btick].isPrefixOf
        (List.dropWhile isPyWs ('\n' :: btick :: btick :: btick :: post)) = true
      rw [List.dropWhile_cons_of_pos (by decide),
          List.dropWhile_cons_of_neg (by decide)]
      simp [List.isPrefixOf]
    rw [h1]
    rfl
  | cons c mid ih =>
    have hb' : btick ∉ mid := fun hm => hb (List.mem_cons_of_mem _ hm)
    rw [List.cons_append]
    unfold lazyAnyScan
    have hcond : fenceAhead
        (c :: (mid ++ rbrace :: '\n' :: btick :: btick :: btick :: post)) = false := by
      have : c :: (mid ++ rbrace :: '\n' :: btick :: btick :: btick :: post) =
          (c :: mid) ++ rbrace :: '\n' :: btick :: btick :: btick :: post := rfl
      rw [this]
      exact fenceAhead_false_before_rbrace _ _ hb
    rw [hcond]
    simp only [Bool.false_eq_true, if_false]
    rw [ih hb']
    rfl

theorem fenceGroupBraceAt_fence (mid post : LC) (sep : LC)
    (hsep : sep = S "json\n" ∨ sep = S "\n") (hb : btick ∉ mid) :
    fenceGroupBraceAt (btick :: btick :: btick ::
        (sep ++ lbrace :: (mid ++ rbrace :: '\n' :: btick :: btick :: btick :: post))) =
      some (lbrace :: (mid ++ [rbrace])) := by
  have h1 := lazyBraceScan_exact mid post hb
  rcases hsep with rfl | rfl
  · show (match (match lazyBraceScan
          (mid ++ rbrace :: '\n' :: btick :: btick :: btick :: post) with
        | some g => some (lbrace :: g)
        | none => (none : Option LC)) with
      | some g => some g
      | none => (none : Option LC)) = some (lbrace :: (mid ++ [rbrace]))
    rw [h1]
  · show (match lazyBraceScan
          (mid ++ rbrace :: '\n' :: btick :: btick :: btick :: post) with
        | some g => some (lbrace :: g)
        | none => (none : Option LC)) = some (lbrace :: (mid ++ [rbrace]))
    rw [h1]

theorem fenceGroupAnyAt_fence (mid post : LC) (sep : LC)
    (hsep : sep = S "json\n" ∨ sep = S "\n") (hb : btick ∉ lbrace :: mid) :
    fenceGroupAnyAt (btick :: btick :: btick ::
        (sep ++ (lbrace :: mid) ++ rbrace :: '\n' :: btick :: btick :: btick :: post)) =
      some ((lbrace :: mid) ++ [rbrace]) := by
  have h1 := lazyAnyScan_exact (lbrace :: mid) post hb
  rcases hsep with rfl | rfl
  · show (match lazyAnyScan
          ((lbrace :: mid) ++ rbrace :: '\n' :: btick :: btick :: btick :: post) with
      | some g => some g
      | none => lazyAnyScan (S "json\n" ++ (lbrace :: mid) ++
          rbrace :: '\n' :: btick :: btick :: btick :: post)) =
        some ((lbrace :: mid) ++ [rbrace])
    rw [h1]
  · show lazyAnyScan
        ((lbrace :: mid) ++ rbrace :: '\n' :: btick :: btick :: btick :: post) =
      some ((lbrace :: mid) ++ [rbrace])
    exact h1

theorem fenceGroupBraceAt_no_btick (c : Char) (t : LC) (hc : c ≠ btick) :
    fenceGroupBraceAt (c :: t) = none := by
  unfold fenceGroupBraceAt
  rw [triple_btick_head_ne c t hc]
  rfl

theorem fenceGroupAnyAt_no_btick (c : Char) (t : LC) (hc : c ≠ btick) :
    fenceGroupAnyAt (c :: t) = none := by
  unfold fenceGroupAnyAt
  rw [triple_btick_head_ne c t hc]
  rfl

theorem searchFenceBrace_skip (pre rest : LC) (hb : btick ∉ pre) :
    searchFenceBrace (pre ++ rest) = searchFenceBrace rest := by
  induction pre with
  | nil => rfl
  | cons c p ih =>
    have hcb : c ≠ btick := fun he => hb (by simp [he])
    have hb' : btick ∉ p := fun hm => hb (List.mem_cons_of_mem _ hm)
    rw [List.cons_append]
    have hstep : searchFenceBrace (c :: (p ++ rest)) =
        (match fenceGroupBraceAt (c :: (p ++ rest)) with
         | some g => some g
         | none => searchFenceBrace (p ++ rest)) := rfl
    rw [hstep, fenceGroupBraceAt_no_btick c _ hcb]
    exact ih hb'

theorem searchFenceAny_skip (pre rest : LC) (hb : btick ∉ pre) :
    searchFenceAny (pre ++ rest) = searchFenceAny rest := by
  induction pre with
  | nil => rfl
  | cons c p ih =>
    have hcb : c ≠ btick := fun he => hb (by simp [he])
    have hb' : btick ∉ p := fun hm => hb (List.mem_cons_of_mem _ hm)
    rw [List.cons_append]
    have hstep : searchFenceAny (c :: (p ++ rest)) =
        (match fenceGroupAnyAt (c :: (p ++ rest)) with
         | some g => some g
         | none => searchFenceAny (p ++ rest)) := rfl
    rw [hstep, fenceGroupAnyAt_no_btick c _ hcb]
    exact ih hb'

theorem searchFenceBrace_head (c : Char) (t g : LC)
    (h : fenceGroupBraceAt (c :: t) = some g) :
    searchFenceBrace (c :: t) = some g := by
  unfold searchFenceBrace
  rw [h]

theorem searchFenceAny_head (c : Char) (t g : LC)
    (h : fenceGroupAnyAt (c :: t) = some g) :
    searchFenceAny (c :: t) = some g := by
  unfold searchFenceAny
  rw [h]

theorem append_cons_not_empty (p : LC) (c : Char) (q : LC) :
    (p ++ c :: q).isEmpty = false := by
  cases p <;> rfl

theorem pyStrip_braced (mid : LC) :
    pyStrip (lbrace :: (mid ++ [rbrace])) = lbrace :: (mid ++ [rbrace]) := by
  unfold pyStrip
  have h1 : (lbrace :: (mid ++ [rbrace])).dropWhile isPyWs =
      lbrace :: (mid ++ [rbrace]) := List.dropWhile_cons_of_neg (by decide)
  rw [h1]
  have h2 : (lbrace :: (mid ++ [rbrace])).reverse =
      rbrace :: (mid.reverse ++ [lbrace]) := by simp
  rw [h2]
  have h3 : (rbrace :: (mid.reverse ++ [lbrace])).dropWhile isPyWs =
      rbrace :: (mid.reverse ++ [lbrace]) := List.dropWhile_cons_of_neg (by decide)
  rw [h3, ← h2, List.reverse_reverse]

theorem serialize_obj_shape (fs : JObj) :
    ∃ mid, serialize (JVal.obj fs) = lbrace :: (mid ++ [rbrace]) := by
  cases fs with
  | nil => exact ⟨[], rfl⟩
  | cons k v tl =>
    refine ⟨serializeStr k ++ ':' :: ' ' :: serialize v ++ serializeObjTail tl, ?_⟩
    show lbrace :: (serializeStr k ++ ':' :: ' ' :: serialize v ++
        serializeObjTail tl ++ [rbrace]) = _
    simp

theorem extract_text_s1 (text : LC) (v : JVal) (h0 : text.isEmpty = false)
    (h1 : loads text = some v) : extract_json_from_text text = v := by
  unfold extract_json_from_text
  rw [h0, h1]
  rfl

theorem extract_text_s2 (text g : LC) (v : JVal) (h0 : text.isEmpty = false)
    (h1 : loads text = none) (h2 : searchFenceBrace text = some g)
    (h3 : loads g = some v) : extract_json_from_text text = v := by
  unfold extract_json_from_text
  rw [h0, h1, h2, show (some g).bind loads = some v from h3]
  rfl

theorem extract_resp_s1 (content : LC) (v dflt : JVal) (h0 : content.isEmpty = false)
    (hstrip : pyStrip content = content) (h1 : loads content = some v) :
    extract_json_from_response content dflt = v := by
  simp only [extract_json_from_response]
  rw [h0, hstrip, h1]
  rfl

theorem extract_resp_s2 (content g : LC) (v dflt : JVal) (h0 : content.isEmpty = false)
    (hstrip : pyStrip content = content) (h1 : loads content = none)
    (h2 : searchFenceAny content = some g) (h3 : loads g = some v) :
    extract_json_from_response content dflt = v := by
  simp only [extract_json_from_response]
  rw [h0, hstrip, h1, h2, show (some g).bind loads = some v from h3]
  rfl

/-! ## Claim C2: fenced and bare serializations are recovered -/

/-- C2 (counterexample): a JSON object whose serialization itself
contains a right brace followed by three backticks inside a string
value defeats extract_json_from_text even with no surrounding prose at
all: the lazy fence group and the bracket count both stop at the brace
inside the string, json.loads fails on the truncated slices, and the
function returns None instead of the object. -/
theorem extraction_fenced_counterexample :
    (S "```json\n" ++ serialize (JVal.obj (JObj.cons (S "a")
        (JVal.str (S "\x7d```")) JObj.nil)) ++ S "\n```" =
      S "```json\n\x7b\"a\": \"\x7d```\"\x7d\n```") ∧
    extract_json_from_text (S "```json\n\x7b\"a\": \"\x7d```\"\x7d\n```") =
      JVal.null ∧
    JVal.null ≠ JVal.obj (JObj.cons (S "a") (JVal.str (S "\x7d```"))
      JObj.nil) := by
  refine ⟨by decide, by decide, by decide⟩

/-- C2 (amended): for every JSON object whose serialization contains
no backtick, and every response that wraps that serialization in a
```json or plain ``` code fence followed by a newline on each side,
preceded by prose that contains no backtick and no double quote and
followed by arbitrary text, both extraction functions recover the
object, provided the response has no leading or trailing whitespace
(str.strip leaves it unchanged); and both also recover the object from
the bare serialization. -/
theorem extraction_fenced_wrapped (fs : JObj) (pre sep post text : LC)
    (hser : btick ∉ serialize (JVal.obj fs))
    (hsep : sep = S "json\n" ∨ sep = S "\n")
    (hpre1 : '"' ∉ pre) (hpre2 : btick ∉ pre)
    (htext : text = pre ++ btick :: btick :: btick ::
        (sep ++ (serialize (JVal.obj fs) ++
          '\n' :: btick :: btick :: btick :: post)))
    (hstrip : pyStrip text = text) :
    extract_json_from_text text = JVal.obj fs ∧
    (∀ dflt, extract_json_from_response text dflt = JVal.obj fs) ∧
    extract_json_from_text (serialize (JVal.obj fs)) = JVal.obj fs ∧
    (∀ dflt, extract_json_from_response (serialize (JVal.obj fs)) dflt =
      JVal.obj fs) := by
  obtain ⟨mid, hshape⟩ := serialize_obj_shape fs
  have hmidb : btick ∉ mid := fun hm => hser (by
    rw [hshape]
    exact List.mem_cons_of_mem _ (List.mem_append_left _ hm))
  have hform : serialize (JVal.obj fs) ++
      '\n' :: btick :: btick :: btick :: post =
      lbrace :: (mid ++ rbrace :: '\n' :: btick :: btick :: btick :: post) := by
    rw [hshape]; simp
  subst htext
  rw [hform] at hstrip ⊢
  refine ⟨?_, ?_, ?_, ?_⟩
  · refine extract_text_s2 _ (lbrace :: (mid ++ [rbrace])) _
      (append_cons_not_empty _ _ _)
      (loads_none_of_btick pre _ hpre1 hpre2) ?_ ?_
    · rw [searchFenceBrace_skip pre _ hpre2]
      exact searchFenceBrace_head _ _ _
        (fenceGroupBraceAt_fence mid post sep hsep hmidb)
    · rw [← hshape]
      exact loads_serialize _
  · intro dflt
    refine extract_resp_s2 _ ((lbrace :: mid) ++ [rbrace]) _ dflt
      (append_cons_not_empty _ _ _) hstrip
      (loads_none_of_btick pre _ hpre1 hpre2) ?_ ?_
    · rw [searchFenceAny_skip pre _ hpre2]
      have hg := fenceGroupAnyAt_fence mid post sep hsep (by
        intro hm
        rcases List.mem_cons.mp hm with he | hm2
        · exact absurd he.symm (by decide)
        · exact hmidb hm2)
      simp only [List.cons_append, List.append_assoc] at hg
      exact searchFenceAny_head _ _ _ hg
    · show loads (lbrace :: (mid ++ [rbrace])) = some (JVal.obj fs)
      rw [← hshape]
      exact loads_serialize _
  · exact extract_text_s1 _ _ (by rw [hshape]; rfl) (loads_serialize _)
  · intro dflt
    exact extract_resp_s1 _ _ dflt (by rw [hshape]; rfl)
      (by rw [hshape]; exact pyStrip_braced mid) (loads_serialize _)

theorem extraction_fenced_wrapped_witness :
    btick ∉ serialize (JVal.obj (JObj.cons (S "k") (JVal.num 1) JObj.nil)) ∧
    extract_json_from_text (S "Answer: " ++ btick :: btick :: btick ::
        (S "json\n" ++ (serialize (JVal.obj (JObj.cons (S "k") (JVal.num 1)
          JObj.nil)) ++ '\n' :: btick :: btick :: btick :: S " done"))) =
      JVal.obj (JObj.cons (S "k") (JVal.num 1) JObj.nil) := by
  refine ⟨by decide, ?_⟩
  exact (extraction_fenced_wrapped (JObj.cons (S "k") (JVal.num 1) JObj.nil)
      (S "Answer: ") (S "json\n") (S " done") _ (by decide) (Or.inl rfl)
      (by decide) (by decide) rfl (by decide)).1

/-! ## The agent-loop rounds -/

theorem runLoop_empty (o : Nat → LLMResult) (s v : JVal → LC)
    (fuel step : Nat) (ms : List Msg) (log : List ToolCall)
    (h : ((o step).content.isEmpty && (o step).reasoning.isEmpty) = true) :
    runLoop o s v (fuel + 1) step ms log = ⟨none, 1, ms, log, .emptyBreak⟩ := by
  simp only [runLoop, h]
  rfl

theorem runLoop_noJson (o : Nat → LLMResult) (s v : JVal → LC)
    (fuel step : Nat) (ms : List Msg) (log : List ToolCall)
    (h1 : ((o step).content.isEmpty && (o step).reasoning.isEmpty) = false)
    (h2 : (if (extract_json_from_text (o step).content).truthy
           then extract_json_from_text (o step).content
           else extract_json_from_text (o step).reasoning).truthy = false) :
    runLoop o s v (fuel + 1) step ms log =
      ⟨(runLoop o s v fuel (step + 1) (ms ++ [⟨S "user", errNoJson⟩]) log).answer,
       (runLoop o s v fuel (step + 1) (ms ++ [⟨S "user", errNoJson⟩]) log).calls + 1,
       (runLoop o s v fuel (step + 1) (ms ++ [⟨S "user", errNoJson⟩]) log).msgs,
       (runLoop o s v fuel (step + 1) (ms ++ [⟨S "user", errNoJson⟩]) log).tools,
       (runLoop o s v fuel (step + 1) (ms ++ [⟨S "user", errNoJson⟩]) log).exit⟩ := by
  simp only [runLoop, h1, h2]
  rfl

theorem runLoop_answer (o : Nat → LLMResult) (s v : JVal → LC)
    (fuel step : Nat) (ms : List Msg) (log : List ToolCall) (fs : JObj)
    (h1 : ((o step).content.isEmpty && (o step).reasoning.isEmpty) = false)
    (h2 : (if (extract_json_from_text (o step).content).truthy
           then extract_json_from_text (o step).content
           else extract_json_from_text (o step).reasoning) = JVal.obj fs)
    (h3 : (JVal.obj fs).truthy = true)
    (h4 : dictGet fs (S "action") (JVal.str []) = JVal.str (S "answer")) :
    runLoop o s v (fuel + 1) step ms log =
      ⟨some (dictGet fs (S "action_input") (JVal.str [])), 1, ms, log,
       .answered⟩ := by
  simp only [runLoop, h1, h2, h3, h4]
  rfl

theorem runLoop_toolRound (o : Nat → LLMResult) (s v : JVal → LC)
    (fuel step : Nat) (ms : List Msg) (log : List ToolCall) (fs : JObj)
    (h1 : ((o step).content.isEmpty && (o step).reasoning.isEmpty) = false)
    (h2 : (if (extract_json_from_text (o step).content).truthy
           then extract_json_from_text (o step).content
           else extract_json_from_text (o step).reasoning) = JVal.obj fs)
    (h3 : (JVal.obj fs).truthy = true)
    (h4 : dictGet fs (S "action") (JVal.str []) ≠ JVal.str (S "answer")) :
    runLoop o s v (fuel + 1) step ms log =
      (let action := dictGet fs (S "action") (JVal.str [])
       let actionInput := dictGet fs (S "action_input") (JVal.str [])
       let obs :=
         if action = JVal.str (S "search") then s actionInput
         else if action = JVal.str (S "visit") then v actionInput
         else S "Unknown action: " ++ pyDisplay action
       let log2 :=
         if action = JVal.str (S "search") then log ++ [.search actionInput]
         else if action = JVal.str (S "visit") then log ++ [.visit actionInput]
         else log
       let ms2 := ms ++
         [⟨S "assistant", serialize (JVal.obj fs)⟩,
          ⟨S "user", S "Observation from " ++ pyDisplay action ++ S ":\n" ++ obs⟩]
       let r := runLoop o s v fuel (step + 1) ms2 log2
       (⟨r.answer, r.calls + 1, r.msgs, r.tools, r.exit⟩ : RunRes)) := by
  simp only [runLoop, h1, h2, h3, h4]
  rfl

theorem runLoop_crash (o : Nat → LLMResult) (s v : JVal → LC)
    (fuel step : Nat) (ms : List Msg) (log : List ToolCall) (d : JVal)
    (h1 : ((o step).content.isEmpty && (o step).reasoning.isEmpty) = false)
    (h2 : (if (extract_json_from_text (o step).content).truthy
           then extract_json_from_text (o step).content
           else extract_json_from_text (o step).reasoning) = d)
    (h3 : d.truthy = true)
    (h4 : ∀ fs, d ≠ JVal.obj fs) :
    runLoop o s v (fuel + 1) step ms log = ⟨none, 1, ms, log, .jsonCrash⟩ := by
  simp only [runLoop, h1, h2, h3]
  cases d with
  | obj fs => exact absurd rfl (h4 fs)
  | null => rfl
  | bool b => rfl
  | num n => rfl
  | str cs => rfl
  | arr xs => rfl

theorem runLoop_struct (o : Nat → LLMResult) (s v : JVal → LC) :
    ∀ (fuel step : Nat) (ms : List Msg) (log : List ToolCall),
      (runLoop o s v fuel step ms log).calls ≤ fuel ∧
      ((runLoop o s v fuel step ms log).exit = .maxStepsReached →
        (runLoop o s v fuel step ms log).calls = fuel) ∧
      (∃ t, (runLoop o s v fuel step ms log).msgs = ms ++ t) := by
  intro fuel
  induction fuel with
  | zero =>
    intro step ms log
    exact ⟨Nat.le_refl 0, fun _ => rfl, ⟨[], (List.append_nil ms).symm⟩⟩
  | succ fuel ih =>
    intro step ms log
    have key : ∀ (X : List Msg) (Y : List ToolCall) (pre : List Msg),
        ms ++ pre = X →
        ((⟨(runLoop o s v fuel (step + 1) X Y).answer,
           (runLoop o s v fuel (step + 1) X Y).calls + 1,
           (runLoop o s v fuel (step + 1) X Y).msgs,
           (runLoop o s v fuel (step + 1) X Y).tools,
           (runLoop o s v fuel (step + 1) X Y).exit⟩ : RunRes).calls ≤ fuel + 1) ∧
        ((⟨(runLoop o s v fuel (step + 1) X Y).answer,
           (runLoop o s v fuel (step + 1) X Y).calls + 1,
           (runLoop o s v fuel (step + 1) X Y).msgs,
           (runLoop o s v fuel (step + 1) X Y).tools,
           (runLoop o s v fuel (step + 1) X Y).exit⟩ : RunRes).exit =
            ExitKind.maxStepsReached →
         (⟨(runLoop o s v fuel (step + 1) X Y).answer,
           (runLoop o s v fuel (step + 1) X Y).calls + 1,
           (runLoop o s v fuel (step + 1) X Y).msgs,
           (runLoop o s v fuel (step + 1) X Y).tools,
           (runLoop o s v fuel (step + 1) X Y).exit⟩ : RunRes).calls = fuel + 1) ∧
        (∃ t, (⟨(runLoop o s v fuel (step + 1) X Y).answer,
           (runLoop o s v fuel (step + 1) X Y).calls + 1,
           (runLoop o s v fuel (step + 1) X Y).msgs,
           (runLoop o s v fuel (step + 1) X Y).tools,
           (runLoop o s v fuel (step + 1) X Y).exit⟩ : RunRes).msgs = ms ++ t) := by
      intro X Y pre hX
      obtain ⟨hc, he, t, ht⟩ := ih (step + 1) X Y
      refine ⟨Nat.succ_le_succ hc, fun hm => by rw [he hm], pre ++ t, ?_⟩
      show (runLoop o s v fuel (step + 1) X Y).msgs = ms ++ (pre ++ t)
      rw [ht, ← hX, List.append_assoc]
    by_cases h1 : ((o step).content.isEmpty && (o step).reasoning.isEmpty) = true
    · rw [runLoop_empty o s v fuel step ms log h1]
      exact ⟨Nat.succ_le_succ (Nat.zero_le _), fun hm => ExitKind.noConfusion hm,
        ⟨[], (List.append_nil ms).symm⟩⟩
    · have h1' : ((o step).content.isEmpty && (o step).reasoning.isEmpty) = false :=
        Bool.eq_false_iff.mpr h1
      by_cases h2 : (if (extract_json_from_text (o step).content).truthy
          then extract_json_from_text (o step).content
          else extract_json_from_text (o step).reasoning).truthy = false
      · rw [runLoop_noJson o s v fuel step ms log h1' h2]
        exact key _ _ [⟨S "user", errNoJson⟩] rfl
      · have h2' : (if (extract_json_from_text (o step).content).truthy
            then extract_json_from_text (o step).content
            else extract_json_from_text (o step).reasoning).truthy = true := by
          cases hb : (if (extract_json_from_text (o step).content).truthy
              then extract_json_from_text (o step).content
              else extract_json_from_text (o step).reasoning).truthy
          · exact absurd hb h2
          · rfl
        cases hdec : (if (extract_json_from_text (o step).content).truthy
            then extract_json_from_text (o step).content
            else extract_json_from_text (o step).reasoning) with
        | obj fs =>
          rw [hdec] at h2'
          by_cases h4 : dictGet fs (S "action") (JVal.str []) = JVal.str (S "answer")
          · rw [runLoop_answer o s v fuel step ms log fs h1' hdec h2' h4]
            exact ⟨Nat.succ_le_succ (Nat.zero_le _), fun hm => ExitKind.noConfusion hm,
        ⟨[], (List.append_nil ms).symm⟩⟩
          · rw [runLoop_toolRound o s v fuel step ms log fs h1' hdec h2' h4]
            exact key _ _ _ rfl
        | null => rw [hdec] at h2'; exact absurd h2' (by decide)
        | bool b =>
          rw [hdec] at h2'
          cases b with
          | false => exact absurd h2' (by decide)
          | true =>
            rw [runLoop_crash o s v fuel step ms log (JVal.bool true) h1' hdec h2'
              (fun fs h => JVal.noConfusion h)]
            exact ⟨Nat.succ_le_succ (Nat.zero_le _), fun hm => ExitKind.noConfusion hm,
        ⟨[], (List.append_nil ms).symm⟩⟩
        | num n =>
          rw [hdec] at h2'
          rw [runLoop_crash o s v fuel step ms log (JVal.num n) h1' hdec h2' (fun fs h => JVal.noConfusion h)]
          exact ⟨Nat.succ_le_succ (Nat.zero_le _), fun hm => ExitKind.noConfusion hm,
        ⟨[], (List.append_nil ms).symm⟩⟩
        | str cs =>
          rw [hdec] at h2'
          rw [runLoop_crash o s v fuel step ms log (JVal.str cs) h1' hdec h2' (fun fs h => JVal.noConfusion h)]
          exact ⟨Nat.succ_le_succ (Nat.zero_le _), fun hm => ExitKind.noConfusion hm,
        ⟨[], (List.append_nil ms).symm⟩⟩
        | arr xs =>
          rw [hdec] at h2'
          rw [runLoop_crash o s v fuel step ms log (JVal.arr xs) h1' hdec h2' (fun fs h => JVal.noConfusion h)]
          exact ⟨Nat.succ_le_succ (Nat.zero_le _), fun hm => ExitKind.noConfusion hm,
        ⟨[], (List.append_nil ms).symm⟩⟩

/-! ## Claim C4: the loop is bounded by max_steps = 7 -/

set_option maxRecDepth 4000 in
/-- C4 (counterexample): the loop has a third early exit the claim
does not mention: a response whose content parses to a truthy non-dict
JSON value (here the array [1]) makes decision.get raise
AttributeError, aborting the run after a single LLM call. -/
theorem loop_crash_counterexample :
    run_gemini_simulation (fun _ => ⟨S "[1]", []⟩) (fun _ => []) (fun _ => [])
        (S "q") =
      ⟨none, 1, [⟨S "system", system_prompt⟩, ⟨S "user", S "q"⟩], [],
       .jsonCrash⟩ ∧
    (1 : Nat) < maxStepsBound := by
  refine ⟨by decide, by decide⟩

/-- C4 (amended): for every oracle and tools, the loop makes at most
max_steps = 7 LLM calls; it makes exactly 7 if and only if it runs out
of steps, and when it stops with fewer calls the exit was an answer
return, an empty-response break, or an AttributeError crash on a
truthy non-dict decision.  Each round increments step exactly once,
which the embedding realises as fuel = max_steps - step decreasing by
one per recursive call. -/
theorem run_loop_bounded (oracle : Nat → LLMResult) (s v : JVal → LC) (q : LC) :
    (run_gemini_simulation oracle s v q).calls ≤ maxStepsBound ∧
    ((run_gemini_simulation oracle s v q).exit = .maxStepsReached →
      (run_gemini_simulation oracle s v q).calls = maxStepsBound) ∧
    ((run_gemini_simulation oracle s v q).calls < maxStepsBound →
      (run_gemini_simulation oracle s v q).exit = .answered ∨
      (run_gemini_simulation oracle s v q).exit = .emptyBreak ∨
      (run_gemini_simulation oracle s v q).exit = .jsonCrash) := by
  obtain ⟨hc, he, _⟩ := runLoop_struct oracle s v maxStepsBound 0
    [⟨S "system", system_prompt⟩, ⟨S "user", q⟩] []
  refine ⟨hc, he, fun hlt => ?_⟩
  cases hx : (run_gemini_simulation oracle s v q).exit with
  | answered => exact Or.inl rfl
  | emptyBreak => exact Or.inr (Or.inl rfl)
  | jsonCrash => exact Or.inr (Or.inr rfl)
  | maxStepsReached =>
    have hcalls : (run_gemini_simulation oracle s v q).calls = maxStepsBound := he hx
    rw [hcalls] at hlt
    exact absurd hlt (lt_irrefl _)

/-! ## Claim C5: dispatch on the action field -/

set_option maxRecDepth 8000 in
/-- C5 (counterexample): a successfully extracted JSON decision is not
always dispatched on its action field: the empty object \x7b\x7d is
extracted as a decision yet is falsy, so every round takes the
JSON-parse-failure path, no tool is invoked, and the loop exhausts all
7 steps appending error messages. -/
theorem loop_dispatch_counterexample :
    extract_json_from_text (S "\x7b\x7d") = JVal.obj JObj.nil ∧
    run_gemini_simulation (fun _ => ⟨S "\x7b\x7d", []⟩) (fun _ => [])
        (fun _ => []) (S "q") =
      ⟨none, 7,
       [⟨S "system", system_prompt⟩, ⟨S "user", S "q"⟩] ++
         List.replicate 7 ⟨S "user", errNoJson⟩,
       [], .maxStepsReached⟩ := by
  refine ⟨by decide, by decide⟩

/-- C5 (amended): in every round whose extracted decision is a truthy
JSON object, the loop dispatches on the "action" field exactly as the
claim says: "search" calls the search tool on action_input and logs
the call, "visit" calls the visit tool and logs it, "answer" returns
action_input at once, and any other action appends an
"Unknown action: ..." observation with no tool call. -/
theorem loop_dispatch (o : Nat → LLMResult) (s v : JVal → LC)
    (fuel step : Nat) (ms : List Msg) (log : List ToolCall) (fs : JObj)
    (act inp : JVal)
    (h1 : ((o step).content.isEmpty && (o step).reasoning.isEmpty) = false)
    (h2 : (if (extract_json_from_text (o step).content).truthy
           then extract_json_from_text (o step).content
           else extract_json_from_text (o step).reasoning) = JVal.obj fs)
    (h3 : (JVal.obj fs).truthy = true)
    (hact : dictGet fs (S "action") (JVal.str []) = act)
    (hinp : dictGet fs (S "action_input") (JVal.str []) = inp) :
    (act = JVal.str (S "answer") →
      runLoop o s v (fuel + 1) step ms log = ⟨some inp, 1, ms, log, .answered⟩) ∧
    (act = JVal.str (S "search") →
      runLoop o s v (fuel + 1) step ms log =
        (let r := runLoop o s v fuel (step + 1)
            (ms ++ [⟨S "assistant", serialize (JVal.obj fs)⟩,
                    ⟨S "user", S "Observation from " ++ pyDisplay act ++
                               S ":\n" ++ s inp⟩])
            (log ++ [.search inp])
         ⟨r.answer, r.calls + 1, r.msgs, r.tools, r.exit⟩)) ∧
    (act = JVal.str (S "visit") →
      runLoop o s v (fuel + 1) step ms log =
        (let r := runLoop o s v fuel (step + 1)
            (ms ++ [⟨S "assistant", serialize (JVal.obj fs)⟩,
                    ⟨S "user", S "Observation from " ++ pyDisplay act ++
                               S ":\n" ++ v inp⟩])
            (log ++ [.visit inp])
         ⟨r.answer, r.calls + 1, r.msgs, r.tools, r.exit⟩)) ∧
    (act ≠ JVal.str (S "answer") → act ≠ JVal.str (S "search") →
     act ≠ JVal.str (S "visit") →
      runLoop o s v (fuel + 1) step ms log =
        (let r := runLoop o s v fuel (step + 1)
            (ms ++ [⟨S "assistant", serialize (JVal.obj fs)⟩,
                    ⟨S "user", S "Observation from " ++ pyDisplay act ++
                               S ":\n" ++ (S "Unknown action: " ++
                               pyDisplay act)⟩])
            log
         ⟨r.answer, r.calls + 1, r.msgs, r.tools, r.exit⟩)) := by
  refine ⟨?_, ?_, ?_, ?_⟩
  · intro ha
    rw [runLoop_answer o s v fuel step ms log fs h1 h2 h3 (hact.trans ha), hinp]
  · intro ha
    have h4 : dictGet fs (S "action") (JVal.str []) ≠ JVal.str (S "answer") := by
      rw [hact, ha]; decide
    rw [runLoop_toolRound o s v fuel step ms log fs h1 h2 h3 h4, hact, hinp, ha]
    rfl
  · intro ha
    have h4 : dictGet fs (S "action") (JVal.str []) ≠ JVal.str (S "answer") := by
      rw [hact, ha]; decide
    rw [runLoop_toolRound o s v fuel step ms log fs h1 h2 h3 h4, hact, hinp, ha]
    rfl
  · intro ha hs hv
    have h4 : dictGet fs (S "action") (JVal.str []) ≠ JVal.str (S "answer") := by
      rw [hact]; exact ha
    rw [runLoop_toolRound o s v fuel step ms log fs h1 h2 h3 h4, hact, hinp]
    simp only [if_neg hs, if_neg hv]

theorem loop_dispatch_witness :
    runLoop (fun _ => ⟨S "\x7b\"action\": \"answer\", \"action_input\": \"ok\"\x7d",
        []⟩) (fun _ => []) (fun _ => []) (0 + 1) 0
      [⟨S "system", system_prompt⟩, ⟨S "user", S "q"⟩] [] =
      ⟨some (JVal.str (S "ok")), 1,
       [⟨S "system", system_prompt⟩, ⟨S "user", S "q"⟩], [], .answered⟩ :=
  (loop_dispatch (fun _ => ⟨S "\x7b\"action\": \"answer\", \"action_input\": \"ok\"\x7d", []⟩)
    (fun _ => []) (fun _ => []) 0 0
    [⟨S "system", system_prompt⟩, ⟨S "user", S "q"⟩] []
    (JObj.cons (S "action") (JVal.str (S "answer"))
      (JObj.cons (S "action_input") (JVal.str (S "ok")) JObj.nil))
    (JVal.str (S "answer")) (JVal.str (S "ok"))
    (by decide) (by decide) (by decide) (by decide) (by decide)).1 rfl

/-! ## Claim C6: history grows by exactly two messages per tool round -/

set_option maxRecDepth 8000 in
/-- C6 (counterexample): a round that extracts the decision \x7b\x7d
(whose action "" is not "answer") appends one message, not two: the
falsy decision takes the error path, so the whole run of the constant
\x7b\x7d oracle ends with seven single user error messages and no
assistant message at all. -/
theorem loop_two_messages_counterexample :
    extract_json_from_text (S "\x7b\x7d") = JVal.obj JObj.nil ∧
    (run_gemini_simulation (fun _ => ⟨S "\x7b\x7d", []⟩) (fun _ => [])
        (fun _ => []) (S "q")).msgs =
      [⟨S "system", system_prompt⟩, ⟨S "user", S "q"⟩,
       ⟨S "user", errNoJson⟩, ⟨S "user", errNoJson⟩, ⟨S "user", errNoJson⟩,
       ⟨S "user", errNoJson⟩, ⟨S "user", errNoJson⟩, ⟨S "user", errNoJson⟩,
       ⟨S "user", errNoJson⟩] ∧
    (run_gemini_simulation (fun _ => ⟨S "\x7b\x7d", []⟩) (fun _ => [])
        (fun _ => []) (S "q")).msgs.length = 9 := by
  refine ⟨by decide, by decide, by decide⟩

/-- C6 (amended): in every round whose extracted decision is a truthy
JSON object with an action other than "answer", exactly two messages
are appended before the next round — the assistant message holding the
serialized decision, then the user message holding the observation —
and the later rounds only extend that list, never editing it; the
system prompt stays the first message of every run's history. -/
theorem loop_message_history (o : Nat → LLMResult) (s v : JVal → LC)
    (fuel step : Nat) (ms : List Msg) (log : List ToolCall) (fs : JObj)
    (act inp : JVal) (q : LC)
    (h1 : ((o step).content.isEmpty && (o step).reasoning.isEmpty) = false)
    (h2 : (if (extract_json_from_text (o step).content).truthy
           then extract_json_from_text (o step).content
           else extract_json_from_text (o step).reasoning) = JVal.obj fs)
    (h3 : (JVal.obj fs).truthy = true)
    (hact : dictGet fs (S "action") (JVal.str []) = act)
    (hinp : dictGet fs (S "action_input") (JVal.str []) = inp)
    (h4 : act ≠ JVal.str (S "answer")) :
    (∃ t, (runLoop o s v (fuel + 1) step ms log).msgs =
      (ms ++ [⟨S "assistant", serialize (JVal.obj fs)⟩,
              ⟨S "user", S "Observation from " ++ pyDisplay act ++ S ":\n" ++
                (if act = JVal.str (S "search") then s inp
                 else if act = JVal.str (S "visit") then v inp
                 else S "Unknown action: " ++ pyDisplay act)⟩]) ++ t) ∧
    (∃ t2, (run_gemini_simulation o s v q).msgs =
      [⟨S "system", system_prompt⟩, ⟨S "user", q⟩] ++ t2) := by
  constructor
  · have h4' : dictGet fs (S "action") (JVal.str []) ≠ JVal.str (S "answer") := by
      rw [hact]; exact h4
    rw [runLoop_toolRound o s v fuel step ms log fs h1 h2 h3 h4', hact, hinp]
    obtain ⟨t, ht⟩ := (runLoop_struct o s v fuel (step + 1)
      (ms ++ [⟨S "assistant", serialize (JVal.obj fs)⟩,
              ⟨S "user", S "Observation from " ++ pyDisplay act ++ S ":\n" ++
                (if act = JVal.str (S "search") then s inp
                 else if act = JVal.str (S "visit") then v inp
                 else S "Unknown action: " ++ pyDisplay act)⟩])
      (if act = JVal.str (S "search") then log ++ [.search inp]
       else if act = JVal.str (S "visit") then log ++ [.visit inp]
       else log)).2.2
    exact ⟨t, ht⟩
  · obtain ⟨t2, ht2⟩ := (runLoop_struct o s v maxStepsBound 0
      [⟨S "system", system_prompt⟩, ⟨S "user", q⟩] []).2.2
    exact ⟨t2, ht2⟩

theorem loop_message_history_witness :
    ∃ t2, (run_gemini_simulation (fun _ => ⟨S "\x7b\"action\": \"noop\"\x7d", []⟩)
        (fun _ => []) (fun _ => []) (S "q")).msgs =
      [⟨S "system", system_prompt⟩, ⟨S "user", S "q"⟩] ++ t2 :=
  (loop_message_history (fun _ => ⟨S "\x7b\"action\": \"noop\"\x7d", []⟩)
    (fun _ => []) (fun _ => []) 0 0 [] []
    (JObj.cons (S "action") (JVal.str (S "noop")) JObj.nil)
    (JVal.str (S "noop")) (JVal.str []) (S "q")
    (by decide) (by decide) (by decide) (by decide) (by decide) (by decide)).2

/-! ## Claim C7: the JSON-failure round -/

/-- C7: in a round with a non-empty response where the content yields
no truthy JSON, the loop falls back to the reasoning trace; when that
also fails, the round's only state change is appending the single user
message "Error: No valid JSON found. Please output ONLY JSON." — no
tool is dispatched, the tool log passes through unchanged, and the
loop proceeds to the next round, which still counts against the
7-round bound (the round's LLM call adds one to the count). -/
theorem loop_error_round (o : Nat → LLMResult) (s v : JVal → LC)
    (fuel step : Nat) (ms : List Msg) (log : List ToolCall)
    (h1 : ((o step).content.isEmpty && (o step).reasoning.isEmpty) = false)
    (hc : (extract_json_from_text (o step).content).truthy = false)
    (hr : (extract_json_from_text (o step).reasoning).truthy = false) :
    (if (extract_json_from_text (o step).content).truthy
     then extract_json_from_text (o step).content
     else extract_json_from_text (o step).reasoning) =
      extract_json_from_text (o step).reasoning ∧
    runLoop o s v (fuel + 1) step ms log =
      ⟨(runLoop o s v fuel (step + 1) (ms ++ [⟨S "user", errNoJson⟩]) log).answer,
       (runLoop o s v fuel (step + 1) (ms ++ [⟨S "user", errNoJson⟩]) log).calls + 1,
       (runLoop o s v fuel (step + 1) (ms ++ [⟨S "user", errNoJson⟩]) log).msgs,
       (runLoop o s v fuel (step + 1) (ms ++ [⟨S "user", errNoJson⟩]) log).tools,
       (runLoop o s v fuel (step + 1) (ms ++ [⟨S "user", errNoJson⟩]) log).exit⟩ := by
  have hif : (if (extract_json_from_text (o step).content).truthy
      then extract_json_from_text (o step).content
      else extract_json_from_text (o step).reasoning) =
      extract_json_from_text (o step).reasoning :=
    if_neg (by rw [hc]; exact Bool.false_ne_true)
  refine ⟨hif, runLoop_noJson o s v fuel step ms log h1 ?_⟩
  rw [hif]
  exact hr

theorem loop_error_round_witness :
    runLoop (fun _ => ⟨S "hi", S "no"⟩) (fun _ => []) (fun _ => []) (0 + 1) 0
        [⟨S "user", S "q"⟩] [] =
      ⟨(runLoop (fun _ => ⟨S "hi", S "no"⟩) (fun _ => []) (fun _ => []) 0 1
          ([⟨S "user", S "q"⟩] ++ [⟨S "user", errNoJson⟩]) []).answer,
       (runLoop (fun _ => ⟨S "hi", S "no"⟩) (fun _ => []) (fun _ => []) 0 1
          ([⟨S "user", S "q"⟩] ++ [⟨S "user", errNoJson⟩]) []).calls + 1,
       (runLoop (fun _ => ⟨S "hi", S "no"⟩) (fun _ => []) (fun _ => []) 0 1
          ([⟨S "user", S "q"⟩] ++ [⟨S "user", errNoJson⟩]) []).msgs,
       (runLoop (fun _ => ⟨S "hi", S "no"⟩) (fun _ => []) (fun _ => []) 0 1
          ([⟨S "user", S "q"⟩] ++ [⟨S "user", errNoJson⟩]) []).tools,
       (runLoop (fun _ => ⟨S "hi", S "no"⟩) (fun _ => []) (fun _ => []) 0 1
          ([⟨S "user", S "q"⟩] ++ [⟨S "user", errNoJson⟩]) []).exit⟩ :=
  (loop_error_round (fun _ => ⟨S "hi", S "no"⟩) (fun _ => []) (fun _ => []) 0 0
    [⟨S "user", S "q"⟩] [] (by decide) (by decide) (by decide)).2

/-! ## Claim C8: page aggregation is order-independent -/

theorem buildResults_aux (completions : List (Nat × LC)) :
    ∀ m : List (Nat × LC), (((m ++ completions).map Prod.fst).Nodup) →
      completions.foldl (fun m2 pv => dictInsert m2 pv.1 pv.2) m =
        m ++ completions := by
  induction completions with
  | nil => intro m _; simp
  | cons kv rest ih =>
    intro m hnd
    obtain ⟨k, v⟩ := kv
    have hkm : ∀ p ∈ m, p.1 ≠ k := by
      intro p hp hpk
      have h1 : (k : Nat) ∈ (m.map Prod.fst) := by
        exact List.mem_map.mpr ⟨p, hp, hpk⟩
      have h2 : (k : Nat) ∈ ((k, v) :: rest).map Prod.fst :=
        List.mem_cons_self _ _
      have := (List.nodup_append.mp (by
        rw [← List.map_append]; exact hnd)).2.2
      exact this h1 h2
    have hins : dictInsert m k v = m ++ [(k, v)] := by
      unfold dictInsert
      rw [if_neg]
      intro hany
      obtain ⟨p, hp, hpk⟩ := List.any_eq_true.mp hany
      exact hkm p hp (by exact decide_eq_true_eq.mp hpk)
    show List.foldl (fun m2 pv => dictInsert m2 pv.1 pv.2) (dictInsert m k v) rest =
      m ++ (k, v) :: rest
    rw [hins, ih (m ++ [(k, v)]) (by
      rw [List.append_assoc]
      exact hnd), List.append_assoc]
    rfl

theorem buildResults_nodup (completions : List (Nat × LC))
    (h : (completions.map Prod.fst).Nodup) :
    buildResults completions = completions := by
  have := buildResults_aux completions [] (by simpa using h)
  simpa using this

theorem plookup_eq_of_mem (pages : List (Nat × LC)) (k : Nat) (c : LC)
    (hnd : (pages.map Prod.fst).Nodup) (hmem : (k, c) ∈ pages) :
    plookup k pages = some c := by
  induction pages with
  | nil => cases hmem
  | cons p rest ih =>
    obtain ⟨k2, c2⟩ := p
    rw [List.map_cons] at hnd
    have hnd2 := (List.nodup_cons.mp hnd).2
    have hknotin := (List.nodup_cons.mp hnd).1
    rcases List.mem_cons.mp hmem with he | hm
    · have hke : k2 = k := (congrArg Prod.fst he).symm
      have hce : c2 = c := (congrArg Prod.snd he).symm
      show (if k2 = k then some c2 else plookup k rest) = some c
      rw [if_pos hke, hce]
    · show (if k2 = k then some c2 else plookup k rest) = some c
      rw [if_neg, ih hnd2 hm]
      intro hke
      exact hknotin (hke ▸ List.mem_map.mpr ⟨(k, c), hm, rfl⟩)

theorem pdf_join_map (pages completions : List (Nat × LC))
    (hnd : (completions.map Prod.fst).Nodup)
    (hsub : ∀ kc ∈ pages, kc ∈ completions) :
    (pages.map Prod.fst).map (fun p => (plookup p completions).getD []) =
      pages.map Prod.snd := by
  induction pages with
  | nil => rfl
  | cons kc rest ih =>
    obtain ⟨k, c⟩ := kc
    rw [List.map_cons, List.map_cons, List.map_cons]
    rw [plookup_eq_of_mem completions k c hnd (hsub _ (List.mem_cons_self _ _))]
    rw [ih (fun x hx => hsub x (List.mem_cons_of_mem _ hx))]
    rfl

/-- C8: for every delivery order of the per-page OCR results, the raw
markdown text equals the per-page outputs joined by blank lines in
strictly ascending page order: the dict built in as_completed order,
its sorted key list, and the per-key lookups reproduce the
page-ordered outputs independently of completion order. -/
theorem pdf_pages_joined_sorted (completions pages : List (Nat × LC))
    (hperm : completions.Perm pages)
    (hsorted : (pages.map Prod.fst).Sorted (· < ·)) :
    rawFullText completions = joinBlank (pages.map Prod.snd) := by
  have hndP : (pages.map Prod.fst).Nodup :=
    hsorted.imp (fun h => Nat.ne_of_lt h)
  have hpermF : (completions.map Prod.fst).Perm (pages.map Prod.fst) :=
    hperm.map Prod.fst
  have hndC : (completions.map Prod.fst).Nodup :=
    (List.Perm.nodup_iff hpermF).mpr hndP
  have hbuild : buildResults completions = completions :=
    buildResults_nodup completions hndC
  have hsortEq : (completions.map Prod.fst).insertionSort (· ≤ ·) =
      pages.map Prod.fst := by
    apply List.eq_of_perm_of_sorted
      ((List.perm_insertionSort (· ≤ ·) (completions.map Prod.fst)).trans hpermF)
      (List.sorted_insertionSort (· ≤ ·) (completions.map Prod.fst))
    exact hsorted.imp (fun h => Nat.le_of_lt h)
  show joinBlank
      (((buildResults completions).map Prod.fst |>.insertionSort (· ≤ ·)).map
        (fun p => (plookup p (buildResults completions)).getD [])) =
    joinBlank (pages.map Prod.snd)
  rw [hbuild, hsortEq,
    pdf_join_map pages completions hndC
      (fun kc hkc => (hperm.mem_iff).mpr hkc)]

theorem pdf_pages_joined_sorted_witness :
    rawFullText [(2, S "b"), (1, S "a")] =
      joinBlank ([(1, S "a"), (2, S "b")].map Prod.snd) :=
  pdf_pages_joined_sorted [(2, S "b"), (1, S "a")] [(1, S "a"), (2, S "b")]
    (by decide) (by decide)

/-! ## Claim C9: save_research / load_research round trip -/

theorem jsonToSteps_stepsToJson (now2 : LC) (steps : List ResearchStep)
    (hsrc : ∀ s ∈ steps,
      (if s.sources.truthy then s.sources else JVal.arr JArr.nil) = s.sources) :
    jsonToSteps now2 (stepsToJson steps) =
      some (steps.map (fun s => { s with timestamp := now2 })) := by
  induction steps with
  | nil => rfl
  | cons s rest ih =>
    have e1 : jsonToStep now2 (stepToJson s) =
        some ⟨s.query, s.step_type,
          (if s.sources.truthy then s.sources else JVal.arr JArr.nil),
          s.analysis, s.reasoning, now2⟩ := rfl
    have hs : jsonToStep now2 (stepToJson s) =
        some { s with timestamp := now2 } := by
      rw [e1, hsrc s (List.mem_cons_self _ _)]
    show (match jsonToStep now2 (stepToJson s),
          jsonToSteps now2 (stepsToJson rest) with
        | some s2, some l => some (s2 :: l)
        | _, _ => none) =
      some ((s :: rest).map (fun s => { s with timestamp := now2 }))
    rw [hs, ih (fun x hx => hsrc x (List.mem_cons_of_mem _ hx))]
    rfl

/-- C9: saving a query and a list of steps and loading the file back
returns the original query and the steps in order with every field
preserved except timestamp, which is regenerated at load time.  The
hypothesis is the constructor invariant of ResearchStep: __init__
replaces falsy sources by [], so every value the class can hold
satisfies `sources or [] == sources`. -/
theorem research_round_trip (q : LC) (steps : List ResearchStep) (now1 now2 : LC)
    (hsrc : ∀ s ∈ steps,
      (if s.sources.truthy then s.sources else JVal.arr JArr.nil) = s.sources) :
    load_research (save_research q steps now1) now2 =
      some (JVal.str q, steps.map (fun s => { s with timestamp := now2 })) := by
  unfold load_research save_research
  rw [loads_serialize]
  show (match jsonToSteps now2 (stepsToJson steps) with
      | some steps2 => some (JVal.str q, steps2)
      | none => none) =
    some (JVal.str q, steps.map (fun s => { s with timestamp := now2 }))
  rw [jsonToSteps_stepsToJson now2 steps hsrc]

theorem research_round_trip_witness :
    load_research (save_research (S "q0")
        [mkResearchStep (JVal.str (S "w")) (JVal.str (S "search"))
          (JVal.arr (JArr.cons (JVal.str (S "u")) JArr.nil))
          (JVal.str (S "a")) (JVal.str (S "r")) (S "t1")] (S "t1")) (S "t2") =
      some (JVal.str (S "q0"),
        [⟨JVal.str (S "w"), JVal.str (S "search"),
          JVal.arr (JArr.cons (JVal.str (S "u")) JArr.nil),
          JVal.str (S "a"), JVal.str (S "r"), S "t2"⟩]) :=
  research_round_trip (S "q0")
    [mkResearchStep (JVal.str (S "w")) (JVal.str (S "search"))
      (JVal.arr (JArr.cons (JVal.str (S "u")) JArr.nil))
      (JVal.str (S "a")) (JVal.str (S "r")) (S "t1")] (S "t1") (S "t2")
    (by decide)

/-! ## Claim C10: which files process_path writes -/

theorem processFiles_spec (outName : LC) (dirs : List LC) (t : Forest) :
    processFiles outName dirs t =
      ((((filesHere t).filter
          (fun e => fileKept outName e.1 e.2.1 e.2.2)).map
            (fun e => renderFile dirs e.1 e.2.2)).join,
       ((filesHere t).filter
          (fun e => fileKept outName e.1 e.2.1 e.2.2)).length) := by
  induction t with
  | empty => rfl
  | fileEntry name dec content rest ih =>
    show (if fileKept outName name dec content = true
        then (renderFile dirs name content ++ (processFiles outName dirs rest).1,
              (processFiles outName dirs rest).2 + 1)
        else processFiles outName dirs rest) = _
    by_cases h : fileKept outName name dec content = true
    · rw [if_pos h, ih]
      show (renderFile dirs name content ++ _, _) = _
      simp only [filesHere, List.filter_cons, h, if_true, List.map_cons,
        List.length_cons]
      rfl
    · rw [if_neg h, ih]
      simp only [filesHere, List.filter_cons, if_neg h]
  | dirEntry name ch rest ihch ihrest => exact ihrest

theorem allSubFiles_dirs_shape (t : Forest) :
    ∀ (ds : List LC), ∀ e ∈ allSubFiles ds t,
      ∃ tl, e.dirs = ds ++ tl ∧ tl ≠ [] := by
  induction t with
  | empty => intro ds e he; cases he
  | fileEntry name dec content rest ih => exact ih
  | dirEntry name ch rest ihch ihrest =>
    intro ds e he
    rcases List.mem_append.mp he with h12 | h3
    · rcases List.mem_append.mp h12 with h1 | h2
      · obtain ⟨x, _, hx⟩ := List.mem_map.mp h1
        exact ⟨[name], by rw [← hx], by simp⟩
      · obtain ⟨tl, htl, _⟩ := ihch (ds ++ [name]) e h2
        exact ⟨[name] ++ tl, by rw [htl, List.append_assoc], by simp⟩
    · exact ihrest ds e h3

theorem filter_entry_map_files (outName : LC) (ds : List LC) (l : List (LC × Bool × LC))
    (hds : ds.all (fun d => !decide (d ∈ IGNORE_DIRS)) = true) :
    (l.map (fun e => (⟨ds, e.1, e.2.1, e.2.2⟩ : FileEntry))).filter
        (entryIncluded outName) =
      (l.filter (fun e => fileKept outName e.1 e.2.1 e.2.2)).map
        (fun e => (⟨ds, e.1, e.2.1, e.2.2⟩ : FileEntry)) := by
  induction l with
  | nil => rfl
  | cons e rest ih =>
    rw [List.map_cons, List.filter_cons, List.filter_cons]
    have hentry : entryIncluded outName ⟨ds, e.1, e.2.1, e.2.2⟩ =
        fileKept outName e.1 e.2.1 e.2.2 := by
      unfold entryIncluded
      rw [hds, Bool.true_and]
    rw [hentry]
    by_cases h : fileKept outName e.1 e.2.1 e.2.2 = true
    · rw [if_pos h, if_pos h, List.map_cons, ih]
    · rw [if_neg h, if_neg h, ih]

theorem filter_entry_ignored (outName : LC) (ds : List LC) (t : Forest)
    (x : LC) (hx : x ∈ ds) (hig : x ∈ IGNORE_DIRS) :
    (allSubFiles ds t).filter (entryIncluded outName) = [] := by
  rw [List.filter_eq_nil]
  intro e he
  obtain ⟨tl, htl, _⟩ := allSubFiles_dirs_shape t ds e he
  unfold entryIncluded
  intro hcontra
  rw [Bool.and_eq_true] at hcontra
  have := List.all_eq_true.mp hcontra.1 x (by
    rw [htl]
    exact List.mem_append_left _ hx)
  rw [Bool.not_eq_true', decide_eq_false_iff_not] at this
  exact this hig

theorem processSubdirs_spec (outName : LC) (t : Forest) :
    ∀ (dirs : List LC),
      dirs.all (fun d => !decide (d ∈ IGNORE_DIRS)) = true →
      processSubdirs outName dirs t =
        ((((allSubFiles dirs t).filter (entryIncluded outName)).map
            renderEntry).join,
         ((allSubFiles dirs t).filter (entryIncluded outName)).length) := by
  induction t with
  | empty => intro dirs _; rfl
  | fileEntry name dec content rest ih => exact ih
  | dirEntry name ch rest ihch ihrest =>
    intro dirs hdirs
    show (if decide (name ∈ IGNORE_DIRS) = true
        then processSubdirs outName dirs rest
        else
          (let f := processFiles outName (dirs ++ [name]) ch
           let d := processSubdirs outName (dirs ++ [name]) ch
           let r := processSubdirs outName dirs rest
           (f.1 ++ d.1 ++ r.1, f.2 + d.2 + r.2))) = _
    by_cases hig : name ∈ IGNORE_DIRS
    · rw [if_pos (decide_eq_true hig)]
      have hd1 : ((filesHere ch).map
          (fun e => (⟨dirs ++ [name], e.1, e.2.1, e.2.2⟩ : FileEntry))).filter
            (entryIncluded outName) = [] := by
        rw [List.filter_eq_nil]
        intro e he
        obtain ⟨x, _, hx⟩ := List.mem_map.mp he
        unfold entryIncluded
        intro hcontra
        rw [Bool.and_eq_true] at hcontra
        have := List.all_eq_true.mp hcontra.1 name (by
          rw [← hx]
          exact List.mem_append_right _ (List.mem_cons_self _ _))
        rw [Bool.not_eq_true', decide_eq_false_iff_not] at this
        exact this hig
      have hd2 : (allSubFiles (dirs ++ [name]) ch).filter
          (entryIncluded outName) = [] :=
        filter_entry_ignored outName (dirs ++ [name]) ch name
          (List.mem_append_right _ (List.mem_cons_self _ _)) hig
      show processSubdirs outName dirs rest = _
      rw [ihrest dirs hdirs]
      simp only [allSubFiles, List.filter_append, hd1, hd2, List.nil_append]
    · rw [if_neg (by rw [decide_eq_false_iff_not.mpr hig]; exact Bool.false_ne_true)]
      have hdirs2 : (dirs ++ [name]).all (fun d => !decide (d ∈ IGNORE_DIRS)) = true := by
        rw [List.all_append, hdirs, Bool.true_and]
        simp [hig]
      show ((processFiles outName (dirs ++ [name]) ch).1 ++
            (processSubdirs outName (dirs ++ [name]) ch).1 ++
            (processSubdirs outName dirs rest).1,
            (processFiles outName (dirs ++ [name]) ch).2 +
            (processSubdirs outName (dirs ++ [name]) ch).2 +
            (processSubdirs outName dirs rest).2) = _
      rw [processFiles_spec, ihch (dirs ++ [name]) hdirs2, ihrest dirs hdirs]
      simp only [allSubFiles, List.filter_append, List.map_append,
        filter_entry_map_files outName (dirs ++ [name]) (filesHere ch) hdirs2,
        List.map_map, List.length_append]
      simp [List.flatten_append, List.append_assoc]
      rfl

/-- C10: process_path writes exactly the files that lie under no
ignored directory, are not ignored names, have no binary extension,
decode, and have non-whitespace content; each as its comment-marked
relative path line, content, and blank line, in walk order; and the
returned count is the number of files written. -/
theorem process_path_writes_exactly (outName : LC) (root : Forest) :
    process_path outName root =
      ((((allEntries root).filter (entryIncluded outName)).map renderEntry).join,
       ((allEntries root).filter (entryIncluded outName)).length) := by
  show ((processFiles outName [] root).1 ++ (processSubdirs outName [] root).1,
        (processFiles outName [] root).2 + (processSubdirs outName [] root).2) = _
  rw [processFiles_spec, processSubdirs_spec outName root [] rfl]
  unfold allEntries
  simp only [List.filter_append, List.map_append, List.length_append,
    filter_entry_map_files outName [] (filesHere root) rfl, List.map_map,
    List.flatten_append, List.length_map]
  rfl
